import Mathlib

/-!
Verification of the two core data structures of `competitive-rs`:
the Fenwick tree (`src/binary_indexed_tree.rs`) and the disjoint-set
structure (`src/union_find.rs`), shallowly embedded in Lean.

Rust `usize` values are modelled as `Nat`; all index arithmetic in the
source stays far below `2^64`, and every bitwise expression is translated
by a width-independent identity noted at its definition.  Fallible
operations (Rust `assert!` or an out-of-fuel recursion) are modelled as
`Option`-returning functions: `none` is the fatal abort, and no successor
state exists in that case, mirroring that the panic fires before any
mutation.

The generic parameter `T: Abelian + Group` of the Rust code (identity,
`apply`, `inverse`, commutativity, associativity — caller-enforced laws,
see `src/group.rs`) is embedded as `[AddCommGroup T]` with `apply = (+)`,
`identity = 0`, `inverse = Neg.neg`.
-/

namespace CompetitiveRs

/-! ### Binary indexed tree: definitions (src/binary_indexed_tree.rs) -/

/-- Mirrors `std::ops::Bound<&usize>`, the two endpoints of the
`impl RangeBounds<usize>` argument of `BIT::query`. -/
inductive RangeBound where
  | unbounded
  | included (b : Nat)
  | excluded (b : Nat)
deriving DecidableEq, Repr

/-- Resolution of `range.start_bound()` performed inside `BIT::query`. -/
def resolveStart : RangeBound → Nat
  | .unbounded => 0
  | .included b => b
  | .excluded b => b + 1

/-- Resolution of `range.end_bound()` performed inside `BIT::query`. -/
def resolveEnd (len : Nat) : RangeBound → Nat
  | .unbounded => len
  | .included e => e + 1
  | .excluded e => e

/-- Rust `pub struct BIT<T: Abelian + Group> { tree: Vec<T> }`. -/
structure BIT (T : Type) where
  tree : List T
deriving DecidableEq, Repr

namespace BIT

variable {T : Type} [AddCommGroup T] {U : Type}

/-- Rust `BIT::new(n)`: a tree of `n` copies of `T::identity()`. -/
def new (T : Type) [AddCommGroup T] (n : Nat) : BIT T :=
  ⟨List.replicate n 0⟩

/-- Rust `BIT::from_slice(v)`: each element of `v` converted into `T` (the
`U: Into<T>` conversion is the explicit function `conv`). -/
def from_slice (conv : U → T) (v : List U) : BIT T :=
  ⟨v.map conv⟩

/-- Rust `BIT::len`. -/
def len (bit : BIT T) : Nat := bit.tree.length

/-- Rust `BIT::up(index) = index + ((index + 1) & !index)`.  On `usize`,
`(index + 1) & !index = (index + 1) - ((index + 1) & index)` (the bits of
`index + 1` minus those it shares with `index`), a form that is
width-independent and hence directly usable on `Nat`. -/
def up (index : Nat) : Nat :=
  index + ((index + 1) - ((index + 1) &&& index))

/-- Rust `usize::checked_sub`. -/
def checkedSub (a b : Nat) : Option Nat :=
  if b ≤ a then some (a - b) else none

/-- Rust `BIT::down(index) = (index & (index + 1)).checked_sub(1)`. -/
def down (index : Nat) : Option Nat :=
  checkedSub (index &&& (index + 1)) 1

/-- The `while index < self.len()` loop of `BIT::add`:
`self.tree[index] = self.tree[index].apply(&value); index = Self::up(index)`. -/
def addLoop (value : T) (tree : List T) (index : Nat) : List T :=
  if _h : index < tree.length then
    addLoop value (tree.set index (tree.getD index 0 + value)) (up index)
  else
    tree
termination_by tree.length - index
decreasing_by
  simp only [List.length_set]
  have h : (index + 1) &&& index ≤ index := Nat.and_le_right
  unfold up
  omega

/-- Rust `BIT::add`: `assert!(index < self.len())` then the update walk; a
failed assertion is `none`, and no mutation has happened in that case. -/
def add (bit : BIT T) (index : Nat) (value : T) : Option (BIT T) :=
  if index < bit.len then some ⟨addLoop value bit.tree index⟩ else none

/-- The `loop` of `BIT::sum`: `ret = ret.apply(&self.tree[index])`, then
descend via `down` or return. -/
def sumLoop (tree : List T) (index : Nat) (ret : T) : T :=
  let ret' := ret + tree.getD index 0
  match _h : down index with
  | some newIndex => sumLoop tree newIndex ret'
  | none => ret'
termination_by index
decreasing_by
  have hle : index &&& (index + 1) ≤ index := Nat.and_le_left
  unfold down checkedSub at _h
  by_cases hc : 1 ≤ index &&& (index + 1)
  · rw [if_pos hc] at _h
    have := Option.some.inj _h
    omega
  · rw [if_neg hc] at _h
    exact absurd _h (by simp)

/-- Rust `BIT::sum(end)`: `assert!(end <= self.len())`, identity for
`end == 0`, otherwise the descent fold starting at `end - 1`. -/
def sum (bit : BIT T) (endIdx : Nat) : Option T :=
  if endIdx ≤ bit.len then
    some (if endIdx = 0 then 0 else sumLoop bit.tree (endIdx - 1) 0)
  else none

/-- Rust `BIT::query(range)`: resolve the bounds, check
`begin < end && begin < len && end <= len`, then
`self.sum(end).apply(&self.sum(begin).inverse())`. -/
def query (bit : BIT T) (sb eb : RangeBound) : Option T :=
  let begin_ := resolveStart sb
  let end_ := resolveEnd bit.len eb
  if begin_ < end_ ∧ begin_ < bit.len ∧ end_ ≤ bit.len then
    match bit.sum end_, bit.sum begin_ with
    | some se, some sbv => some (se + -sbv)
    | _, _ => none
  else none

/-- Rust `BIT::get(index)`: `assert!(index < self.len())` then
`query(index..=index)`. -/
def get (bit : BIT T) (index : Nat) : Option T :=
  if index < bit.len then bit.query (.included index) (.included index) else none

/-- A sequence of `add` calls, each aborting the whole run on failure. -/
def applyAll (updates : List (Nat × T)) (bit : BIT T) : Option (BIT T) :=
  updates.foldlM (fun b u => b.add u.1 u.2) bit

/-- Left endpoint of the index interval `[lowEnd j, j]` covered by tree
node `j`; `down j` computes `lowEnd j - 1`. -/
def lowEnd (j : Nat) : Nat := j &&& (j + 1)

/-- The set of tree nodes visited by the ascent `index, up index,
up (up index), …` started at `i`. -/
inductive UpChain (i : Nat) : Nat → Prop
  | refl : UpChain i i
  | step {j : Nat} : UpChain i j → UpChain i (up j)

/-- Abstraction relation: `bit` is the Fenwick encoding of the list `xs`
of logical values (node `j` holds the fold of `xs` over `[lowEnd j, j]`). -/
def Models (bit : BIT T) (xs : List T) : Prop :=
  bit.tree.length = xs.length ∧
  ∀ j, j < bit.tree.length →
    bit.tree.getD j 0 = ∑ k ∈ Finset.Icc (lowEnd j) j, xs.getD k 0

/-- One update of the logical value list: the spec-level effect of
`add (i, v)`. -/
def modelAdd (xs : List T) (u : Nat × T) : List T :=
  xs.set u.1 (xs.getD u.1 0 + u.2)

/-- Group-fold of the update values whose index lies in `[a, b)` — the
value the specification says a range query must return. -/
def rangeFold (us : List (Nat × T)) (a b : Nat) : T :=
  ((us.filter (fun u => decide (a ≤ u.1 ∧ u.1 < b))).map Prod.snd).sum

end BIT

/-! ### Union-find: definitions (src/union_find.rs) -/

/-- Rust `pub struct UnionFind { parents: Vec<usize>, rank: Vec<usize>,
size: Vec<usize> }`. -/
structure UnionFind where
  parents : List Nat
  rank : List Nat
  size : List Nat
deriving DecidableEq, Repr

namespace UnionFind

/-- Rust `UnionFind::new(n)`: every index its own root, rank 0, size 1. -/
def new (n : Nat) : UnionFind :=
  ⟨List.range n, List.replicate n 0, List.replicate n 1⟩

/-- Rust `UnionFind::len`. -/
def len (uf : UnionFind) : Nat := uf.parents.length

/-- Rust `UnionFind::root(node)`, path compression included, with explicit
recursion fuel: the source recursion
`if parents[node] != node { parents[node] = root(parents[node]) }; parents[node]`
has no structural decrease, so each unfolding consumes one unit of fuel and
exhausted fuel returns `none` (claim C10 is exactly that fuel `len` never
runs out on reachable states). -/
def rootAux : Nat → List Nat → Nat → Option (Nat × List Nat)
  | 0, _, _ => none
  | fuel + 1, parents, node =>
    if parents.getD node node ≠ node then
      match rootAux fuel parents (parents.getD node node) with
      | some (r, parents') => some (r, parents'.set node r)
      | none => none
    else
      some (node, parents)

/-- Entry point of `UnionFind::root` as used by the public operations:
fuel is the element count. -/
def root (uf : UnionFind) (node : Nat) : Option (Nat × UnionFind) :=
  (rootAux uf.len uf.parents node).map fun p => (p.1, ⟨p.2, uf.rank, uf.size⟩)

/-- Rust `UnionFind::merge(a, b)`: find both roots (compressing), no-op if
equal, otherwise union by rank — swap so the first root has the larger
rank, increment its rank on a tie, accumulate `size`, reparent the other
root.  A `none` from `root` (never on reachable states) propagates. -/
def merge (uf : UnionFind) (a b : Nat) : Option UnionFind :=
  match uf.root a with
  | none => none
  | some ra =>
    match ra.2.root b with
    | none => none
    | some rb =>
      if ra.1 = rb.1 then some rb.2
      else
        let uf2 := rb.2
        let roots :=
          if uf2.rank.getD ra.1 0 < uf2.rank.getD rb.1 0 then (rb.1, ra.1)
          else (ra.1, rb.1)
        let rank' :=
          if uf2.rank.getD roots.1 0 = uf2.rank.getD roots.2 0 then
            uf2.rank.set roots.1 (uf2.rank.getD roots.1 0 + 1)
          else uf2.rank
        let size' :=
          uf2.size.set roots.1 (uf2.size.getD roots.1 0 + uf2.size.getD roots.2 0)
        some ⟨uf2.parents.set roots.2 roots.1, rank', size'⟩

/-- Rust `UnionFind::is_same(a, b) = self.root(a) == self.root(b)`
(both root calls compress; the mutated state is returned too). -/
def is_same (uf : UnionFind) (a b : Nat) : Option (Bool × UnionFind) :=
  match uf.root a with
  | none => none
  | some ra =>
    match ra.2.root b with
    | none => none
    | some rb => some (ra.1 == rb.1, rb.2)

/-- Rust `UnionFind::size(n) = self.size[self.root(n)]` (the method named
`sizeOp` here because `size` is the field accessor). -/
def sizeOp (uf : UnionFind) (n : Nat) : Option (Nat × UnionFind) :=
  match uf.root n with
  | none => none
  | some r => some (r.2.size.getD r.1 0, r.2)

/-- The `for i in 0..len { self.root(i); }` loop opening
`UnionFind::groups`. -/
def compressAll (uf : UnionFind) : Option UnionFind :=
  (List.range uf.len).foldlM (fun u i => (u.root i).map Prod.snd) uf

/-- The second loop of `UnionFind::groups`: `ret[self.parents[i]].push(i)`
over `len` initially-empty buckets. -/
def buildGroups (parents : List Nat) (len : Nat) : List (List Nat) :=
  (List.range len).foldl
    (fun ret i =>
      ret.set (parents.getD i i) (ret.getD (parents.getD i i) [] ++ [i]))
    (List.replicate len [])

/-- Rust `UnionFind::groups()`: compress every path, bucket indices by
their (now direct) parent, keep non-empty buckets. -/
def groups (uf : UnionFind) : Option (List (List Nat) × UnionFind) :=
  match uf.compressAll with
  | none => none
  | some uf1 => some ((buildGroups uf1.parents uf.len).filter (fun v => !v.isEmpty), uf1)

/-! #### Spec-level view of the forest -/

/-- Parent pointer read, `parents[i]` (indices are in bounds everywhere it
is used on reachable states). -/
def parentOf (parents : List Nat) (i : Nat) : Nat := parents.getD i i

/-- Iterated parent pointer. -/
def iterParent (parents : List Nat) : Nat → Nat → Nat
  | 0, i => i
  | k + 1, i => iterParent parents k (parentOf parents i)

/-- Index `i` is a forest root: its parent pointer is a self-loop. -/
def IsRootIdx (parents : List Nat) (i : Nat) : Prop := parentOf parents i = i

/-- The parent chain from `i` reaches the root `r`. -/
def Reaches (parents : List Nat) (i r : Nat) : Prop :=
  ∃ k, iterParent parents k i = r ∧ IsRootIdx parents r

/-- Fuelled pure root lookup (no compression), for stating the logical
partition. -/
def findRootAux : Nat → List Nat → Nat → Option Nat
  | 0, _, _ => none
  | fuel + 1, parents, node =>
    if parentOf parents node = node then some node
    else findRootAux fuel parents (parentOf parents node)

/-- Total spec-level root function; on well-formed states it returns the
root of `i`'s component. -/
def rootD (uf : UnionFind) (i : Nat) : Nat :=
  (findRootAux (uf.len + 1) uf.parents i).getD i

/-- Result of `is_same` alone, discarding the compressed state. -/
def isSameVal (uf : UnionFind) (a b : Nat) : Option Bool :=
  (uf.is_same a b).map Prod.fst

/-- Spec-level name for the root surviving `merge(a, b)`: the higher-rank
root, the root of `a` on ties. -/
def mergeWinner (uf : UnionFind) (a b : Nat) : Nat :=
  if uf.rank.getD (rootD uf a) 0 < uf.rank.getD (rootD uf b) 0 then rootD uf b
  else rootD uf a

/-- Spec-level name for the root absorbed by `merge(a, b)`. -/
def mergeLoser (uf : UnionFind) (a b : Nat) : Nat :=
  if uf.rank.getD (rootD uf a) 0 < uf.rank.getD (rootD uf b) 0 then rootD uf a
  else rootD uf b

/-- States produced from `new n` by any sequence of the public operations
with in-bounds arguments. -/
inductive Reachable : UnionFind → Prop
  | new (n : Nat) : Reachable (UnionFind.new n)
  | merge {uf uf' : UnionFind} {a b : Nat} : Reachable uf → a < uf.len →
      b < uf.len → uf.merge a b = some uf' → Reachable uf'
  | sameCall {uf : UnionFind} {a b : Nat} {res : Bool × UnionFind} :
      Reachable uf → a < uf.len → b < uf.len → uf.is_same a b = some res →
      Reachable res.2
  | sizeCall {uf : UnionFind} {x : Nat} {res : Nat × UnionFind} :
      Reachable uf → x < uf.len → uf.sizeOp x = some res → Reachable res.2
  | groupsCall {uf : UnionFind} {res : List (List Nat) × UnionFind} :
      Reachable uf → uf.groups = some res → Reachable res.2

/-- Structural invariant of every reachable state: parallel array lengths,
in-bounds parent pointers, every chain reaches a root, and the stored size
of each root counts the indices whose root it is. -/
def WF (uf : UnionFind) : Prop :=
  uf.rank.length = uf.len ∧
  uf.size.length = uf.len ∧
  (∀ i, i < uf.len → parentOf uf.parents i < uf.len) ∧
  (∀ i, i < uf.len → ∃ r, Reaches uf.parents i r) ∧
  (∀ r, r < uf.len → IsRootIdx uf.parents r →
    uf.size.getD r 0 =
      ((Finset.range uf.len).filter (fun i => rootD uf i = r)).card)

end UnionFind

/-! ### List access helpers -/

lemma getD_set_self {α : Type} {l : List α} {i : Nat} (x : α) (h : i < l.length)
    (d : α) : (l.set i x).getD i d = x := by
  simp [List.getD, List.getElem?_set, h]

lemma getD_set_ne {α : Type} {l : List α} {i j : Nat} (x : α) (hne : i ≠ j)
    (d : α) : (l.set i x).getD j d = l.getD j d := by
  simp [List.getD, List.getElem?_set, hne]

lemma getD_replicate {α : Type} (a d : α) (n k : Nat) :
    (List.replicate n a).getD k d = if k < n then a else d := by
  rcases Nat.lt_or_ge k n with h | h
  · rw [List.getD_eq_getElem _ _ (by simpa using h), if_pos h]
    simp
  · rw [List.getD_eq_default _ _ (by simpa using h), if_neg (by omega)]

lemma getD_replicate_self {α : Type} (a : α) (n k : Nat) :
    (List.replicate n a).getD k a = a := by
  rw [getD_replicate]
  split <;> rfl

lemma getD_range {n i : Nat} (h : i < n) (d : Nat) :
    (List.range n).getD i d = i := by
  rw [List.getD_eq_getElem _ _ (by simpa using h)]
  simp

/-! ### Binary indexed tree: lemmas -/

namespace BIT

lemma lt_up (index : Nat) : index < up index := by
  have h : (index + 1) &&& index ≤ index := Nat.and_le_right
  unfold up
  omega

lemma down_lt {index newIndex : Nat} (h : down index = some newIndex) :
    newIndex < index := by
  have hle : index &&& (index + 1) ≤ index := Nat.and_le_left
  unfold down checkedSub at h
  by_cases hc : 1 ≤ index &&& (index + 1)
  · rw [if_pos hc] at h
    have := Option.some.inj h
    omega
  · rw [if_neg hc] at h
    exact absurd h (by simp)

lemma down_eq (j : Nat) :
    down j = if lowEnd j = 0 then none else some (lowEnd j - 1) := by
  unfold down checkedSub lowEnd
  rcases Nat.eq_zero_or_pos (j &&& (j + 1)) with h | h
  · simp [h]
  · rw [if_pos (by omega : 1 ≤ j &&& (j + 1)), if_neg (by omega)]

lemma lowEnd_le (j : Nat) : lowEnd j ≤ j := Nat.and_le_left

lemma lowEnd_two_mul (k : Nat) : lowEnd (2 * k) = 2 * k := by
  have h : Nat.bit false k &&& Nat.bit true k = Nat.bit (false && true) (k &&& k) :=
    Nat.land_bit false k true k
  simpa [Nat.bit_val, Nat.and_self, lowEnd] using h

lemma lowEnd_two_mul_add_one (k : Nat) : lowEnd (2 * k + 1) = 2 * lowEnd k := by
  have h : Nat.bit true k &&& Nat.bit false (k + 1) =
      Nat.bit (true && false) (k &&& (k + 1)) := Nat.land_bit true k false (k + 1)
  have h2 : 2 * (k + 1) = 2 * k + 1 + 1 := by omega
  simpa [Nat.bit_val, lowEnd, h2] using h

lemma up_two_mul (k : Nat) : up (2 * k) = 2 * k + 1 := by
  have h : (2 * k + 1) &&& (2 * k) = 2 * k := by
    rw [Nat.land_comm]
    exact lowEnd_two_mul k
  unfold up
  omega

lemma up_two_mul_add_one (k : Nat) : up (2 * k + 1) = 2 * up k + 1 := by
  have h : (2 * k + 1 + 1) &&& (2 * k + 1) = 2 * ((k + 1) &&& k) := by
    rw [Nat.land_comm]
    have := lowEnd_two_mul_add_one k
    unfold lowEnd at this
    rw [this, Nat.land_comm]
  have hk : (k + 1) &&& k ≤ k := Nat.and_le_right
  have hk2 : (k + 1) &&& k = k &&& (k + 1) := Nat.land_comm _ _
  unfold up
  omega

lemma lowEnd_up_le (j : Nat) : lowEnd (up j) ≤ lowEnd j := by
  induction j using Nat.strong_induction_on with
  | _ j ih =>
    rcases Nat.even_or_odd' j with ⟨k, hk | hk⟩
    · subst hk
      rw [up_two_mul, lowEnd_two_mul, lowEnd_two_mul_add_one]
      have := lowEnd_le k
      omega
    · subst hk
      rw [up_two_mul_add_one, lowEnd_two_mul_add_one, lowEnd_two_mul_add_one]
      have := ih k (by omega)
      omega

lemma up_le_of_lowEnd_le {i j : Nat} (h1 : lowEnd j ≤ i) (h2 : i < j) :
    up i ≤ j := by
  induction j using Nat.strong_induction_on generalizing i with
  | _ j ih =>
    rcases Nat.even_or_odd' j with ⟨b, hb | hb⟩
    · subst hb
      rw [lowEnd_two_mul] at h1
      omega
    · subst hb
      rw [lowEnd_two_mul_add_one] at h1
      rcases Nat.even_or_odd' i with ⟨a, ha | ha⟩
      · subst ha
        rw [up_two_mul]
        omega
      · subst ha
        rw [up_two_mul_add_one]
        have hab : up a ≤ b := ih b (by omega) (by omega) (by omega)
        omega

lemma UpChain.le {i j : Nat} (h : UpChain i j) : i ≤ j := by
  induction h with
  | refl => exact le_refl i
  | step _ ih => exact le_trans ih (le_of_lt (lt_up _))

lemma UpChain.lowEnd_le_start {i j : Nat} (h : UpChain i j) : lowEnd j ≤ i := by
  induction h with
  | refl => exact lowEnd_le i
  | step _ ih => exact le_trans (lowEnd_up_le _) ih

lemma UpChain.of_up {i j : Nat} (h : UpChain (up i) j) : UpChain i j := by
  induction h with
  | refl => exact UpChain.step UpChain.refl
  | step _ ih => exact UpChain.step ih

/-- Node `j` lies on the ascent from `i` exactly when its covered interval
`[lowEnd j, j]` contains `i`. -/
lemma upChain_iff {i j : Nat} : UpChain i j ↔ lowEnd j ≤ i ∧ i ≤ j := by
  constructor
  · exact fun h => ⟨h.lowEnd_le_start, h.le⟩
  · rintro ⟨h1, h2⟩
    rcases Nat.lt_or_ge i j with hlt | hge
    case inr =>
      have : i = j := le_antisymm h2 hge
      subst this
      exact UpChain.refl
    case inl =>
      clear h2
      have hm : j - up i < j - i := by
        have := lt_up i
        have := up_le_of_lowEnd_le h1 hlt
        omega
      have hnext : UpChain (up i) j := by
        have h1' : lowEnd j ≤ up i := le_trans h1 (le_of_lt (lt_up i))
        have h2' : up i ≤ j := up_le_of_lowEnd_le h1 hlt
        exact upChain_iff.mpr ⟨h1', h2'⟩
      exact hnext.of_up
termination_by j - i

lemma upChain_unfold {i j : Nat} : UpChain i j ↔ j = i ∨ UpChain (up i) j := by
  constructor
  · intro h
    induction h with
    | refl => exact Or.inl rfl
    | step h ih =>
      rcases ih with rfl | h'
      · exact Or.inr UpChain.refl
      · exact Or.inr (UpChain.step h')
  · rintro (rfl | h)
    · exact UpChain.refl
    · exact h.of_up

variable {T : Type} [AddCommGroup T]

lemma addLoop_length (value : T) (tree : List T) (index : Nat) :
    (addLoop value tree index).length = tree.length := by
  induction tree, index using addLoop.induct value with
  | case1 tree index h ih =>
    rw [addLoop, dif_pos h]
    simpa using ih
  | case2 tree index h =>
    rw [addLoop, dif_neg h]

/-- The update walk adds `value` to every node whose interval contains
`index` (these are exactly the nodes on the ascent from `index`) and leaves
every other node alone. -/
lemma addLoop_getD (value : T) (tree : List T) (index j : Nat) :
    j < tree.length →
    (addLoop value tree index).getD j 0 =
      tree.getD j 0 + (if lowEnd j ≤ index ∧ index ≤ j then value else 0) := by
  induction tree, index using addLoop.induct value with
  | case1 tree index h ih =>
    intro hj
    rw [addLoop, dif_pos h]
    rw [ih (by simpa using hj)]
    by_cases hji : j = index
    · subst hji
      rw [getD_set_self _ h, if_neg (by have := lt_up j; omega),
        if_pos ⟨lowEnd_le j, le_refl j⟩, add_zero]
    · rw [getD_set_ne _ (Ne.symm hji)]
      have hiff : (lowEnd j ≤ up index ∧ up index ≤ j) ↔
          (lowEnd j ≤ index ∧ index ≤ j) := by
        rw [← upChain_iff, ← upChain_iff, @upChain_unfold index j]
        constructor
        · exact fun h' => Or.inr h'
        · rintro (rfl | h')
          · exact absurd rfl hji
          · exact h'
      rw [if_congr hiff rfl rfl]
  | case2 tree index h =>
    intro hj
    rw [addLoop, dif_neg h, if_neg (by omega), add_zero]

/-- The descent fold visits intervals that tile `[0, index]`, so it
computes the fold of the first `index + 1` logical values. -/
lemma sumLoop_eq (tree xs : List T)
    (htree : ∀ j, j < tree.length →
      tree.getD j 0 = ∑ k ∈ Finset.Icc (lowEnd j) j, xs.getD k 0)
    (index : Nat) :
    index < tree.length → ∀ acc : T,
      sumLoop tree index acc = acc + ∑ k ∈ Finset.range (index + 1), xs.getD k 0 := by
  induction index using Nat.strong_induction_on with
  | _ index ih =>
    intro hidx acc
    rw [sumLoop]
    split
    case h_1 newIndex heq =>
      rw [down_eq] at heq
      by_cases h0 : lowEnd index = 0
      · rw [if_pos h0] at heq
        exact absurd heq (by simp)
      · rw [if_neg h0] at heq
        have hni : newIndex = lowEnd index - 1 := (Option.some.inj heq).symm
        have hlow : lowEnd index ≤ index := lowEnd_le index
        have hlt : newIndex < index := by omega
        rw [ih newIndex hlt (by omega) (acc + tree.getD index 0), htree index hidx]
        have hsplit :
            (∑ k ∈ Finset.Icc (lowEnd index) index, xs.getD k 0) +
              ∑ k ∈ Finset.range (newIndex + 1), xs.getD k 0 =
            ∑ k ∈ Finset.range (index + 1), xs.getD k 0 := by
          have h1 : newIndex + 1 = lowEnd index := by omega
          rw [h1, Finset.range_eq_Ico, ← Nat.Ico_succ_right (lowEnd index) index,
            add_comm]
          exact Finset.sum_Ico_consecutive _ (Nat.zero_le _) (by omega)
        rw [add_assoc, hsplit]
    case h_2 heq =>
      rw [down_eq] at heq
      by_cases h0 : lowEnd index = 0
      · rw [htree index hidx, h0]
        congr 1
        rw [Finset.range_eq_Ico, ← Nat.Ico_succ_right 0 index]
      · rw [if_neg h0] at heq
        exact absurd heq (by simp)

/-- Under the abstraction relation, `sum end` is the fold of the first
`end` logical values. -/
lemma sum_eq {bit : BIT T} {xs : List T} (hm : Models bit xs) {endIdx : Nat}
    (h : endIdx ≤ bit.len) :
    bit.sum endIdx = some (∑ k ∈ Finset.range endIdx, xs.getD k 0) := by
  obtain ⟨hlen, htree⟩ := hm
  rw [sum, if_pos h]
  rcases Nat.eq_zero_or_pos endIdx with h0 | h0
  · subst h0
    simp
  · rw [if_neg (by omega)]
    have hidx : endIdx - 1 < bit.tree.length := by
      have hlen2 : bit.len = bit.tree.length := rfl
      omega
    have harg : endIdx - 1 + 1 = endIdx := by omega
    rw [sumLoop_eq bit.tree xs htree (endIdx - 1) hidx 0, zero_add, harg]

/-- Under the abstraction relation, a valid query returns the fold of the
logical values over the resolved half-open interval. -/
lemma query_eq {bit : BIT T} {xs : List T} (hm : Models bit xs)
    {sb eb : RangeBound}
    (h1 : resolveStart sb < resolveEnd bit.len eb)
    (h3 : resolveEnd bit.len eb ≤ bit.len) :
    bit.query sb eb =
      some (∑ k ∈ Finset.Ico (resolveStart sb) (resolveEnd bit.len eb),
        xs.getD k 0) := by
  have h2 : resolveStart sb < bit.len := by omega
  rw [query]
  show (if resolveStart sb < resolveEnd bit.len eb ∧ resolveStart sb < bit.len ∧
      resolveEnd bit.len eb ≤ bit.len then
      match bit.sum (resolveEnd bit.len eb), bit.sum (resolveStart sb) with
      | some se, some sbv => some (se + -sbv)
      | _, _ => none
    else none) = _
  rw [if_pos ⟨h1, h2, h3⟩, sum_eq hm h3, sum_eq hm (le_of_lt h2)]
  show some ((∑ k ∈ Finset.range (resolveEnd bit.len eb), xs.getD k 0) +
      -(∑ k ∈ Finset.range (resolveStart sb), xs.getD k 0)) = _
  have hkey : (∑ k ∈ Finset.range (resolveStart sb), xs.getD k 0) +
      ∑ k ∈ Finset.Ico (resolveStart sb) (resolveEnd bit.len eb), xs.getD k 0 =
      ∑ k ∈ Finset.range (resolveEnd bit.len eb), xs.getD k 0 := by
    rw [Finset.range_eq_Ico]
    exact Finset.sum_Ico_consecutive _ (Nat.zero_le _) (le_of_lt h1)
  rw [← hkey]
  congr 1
  abel

lemma len_new (n : Nat) : (new T n).len = n := by
  simp [new, len]

lemma query_ite (bit : BIT T) (sb eb : RangeBound) :
    bit.query sb eb =
      if resolveStart sb < resolveEnd bit.len eb ∧ resolveStart sb < bit.len ∧
          resolveEnd bit.len eb ≤ bit.len then
        match bit.sum (resolveEnd bit.len eb), bit.sum (resolveStart sb) with
        | some se, some sbv => some (se + -sbv)
        | _, _ => none
      else none := rfl

lemma new_models (n : Nat) : Models (new T n) (List.replicate n 0) := by
  refine ⟨by simp [new], fun j hj => ?_⟩
  rw [show (new T n).tree = List.replicate n 0 from rfl, getD_replicate_self]
  rw [Finset.sum_congr rfl (fun k _ => getD_replicate_self 0 n k),
    Finset.sum_const_zero]

/-- Effect of one successful `add` on the abstraction. -/
lemma add_models {bit : BIT T} {xs : List T} (hm : Models bit xs) {i : Nat}
    (hi : i < bit.len) (v : T) :
    bit.add i v = some ⟨addLoop v bit.tree i⟩ ∧
      Models ⟨addLoop v bit.tree i⟩ (modelAdd xs (i, v)) := by
  obtain ⟨hlen, htree⟩ := hm
  have hixs : i < xs.length := by
    unfold len at hi
    omega
  refine ⟨by rw [add, if_pos hi], ⟨by simp [modelAdd, addLoop_length, hlen], ?_⟩⟩
  intro j hj
  rw [show (BIT.mk (addLoop v bit.tree i)).tree = addLoop v bit.tree i from rfl] at hj ⊢
  rw [addLoop_length] at hj
  rw [addLoop_getD v bit.tree i j hj, htree j hj]
  have hpt : ∀ k, (modelAdd xs (i, v)).getD k 0 =
      xs.getD k 0 + (if k = i then v else 0) := by
    intro k
    by_cases hk : k = i
    · subst hk
      rw [if_pos rfl]
      unfold modelAdd
      rw [getD_set_self _ hixs]
    · rw [if_neg hk]
      unfold modelAdd
      rw [getD_set_ne _ (Ne.symm hk), add_zero]
  rw [Finset.sum_congr rfl (fun k _ => hpt k), Finset.sum_add_distrib,
    Finset.sum_ite_eq' _ i (fun _ => v)]
  congr 1
  exact (if_congr Finset.mem_Icc rfl rfl).symm

lemma modelAdd_length (xs : List T) (u : Nat × T) :
    (modelAdd xs u).length = xs.length := by
  simp [modelAdd]

lemma foldl_modelAdd_length (us : List (Nat × T)) (xs : List T) :
    (us.foldl modelAdd xs).length = xs.length := by
  induction us generalizing xs with
  | nil => rfl
  | cons u us ih => rw [List.foldl_cons, ih, modelAdd_length]

/-- Running every update through `add` succeeds and tracks the spec-level
value list. -/
lemma applyAll_models {bit : BIT T} {xs : List T} (hm : Models bit xs)
    (us : List (Nat × T)) (hus : ∀ u ∈ us, u.1 < bit.len) :
    ∃ bit' : BIT T, applyAll us bit = some bit' ∧
      Models bit' (us.foldl modelAdd xs) := by
  induction us generalizing bit xs with
  | nil => exact ⟨bit, rfl, hm⟩
  | cons u us ih =>
    have hu : u.1 < bit.len := hus u (List.mem_cons_self u us)
    obtain ⟨hstep, hm2⟩ := add_models hm hu u.2
    have hlen2 : (BIT.mk (addLoop u.2 bit.tree u.1)).len = bit.len := by
      unfold len
      rw [show (BIT.mk (addLoop u.2 bit.tree u.1)).tree = addLoop u.2 bit.tree u.1 from rfl]
      rw [addLoop_length]
    obtain ⟨bit', hrun, hm'⟩ := ih hm2
      (fun w hw => by rw [hlen2]; exact hus w (List.mem_cons_of_mem u hw))
    refine ⟨bit', ?_, by simpa [modelAdd] using hm'⟩
    rw [applyAll, List.foldlM_cons]
    rw [show bit.add u.1 u.2 = some ⟨addLoop u.2 bit.tree u.1⟩ from hstep]
    exact hrun

/-- The value list accumulated by the updates holds, at each index, the
fold of the updates applied there. -/
lemma foldl_modelAdd_getD (us : List (Nat × T)) (xs : List T)
    (hus : ∀ u ∈ us, u.1 < xs.length) (i : Nat) :
    (us.foldl modelAdd xs).getD i 0 =
      xs.getD i 0 + ((us.filter (fun u => u.1 == i)).map Prod.snd).sum := by
  induction us generalizing xs with
  | nil => simp
  | cons u us ih =>
    have hu : u.1 < xs.length := hus u (List.mem_cons_self u us)
    rw [List.foldl_cons, ih (modelAdd xs u)
      (fun w hw => by rw [modelAdd_length]; exact hus w (List.mem_cons_of_mem u hw))]
    have hpt : (modelAdd xs u).getD i 0 = xs.getD i 0 + (if u.1 = i then u.2 else 0) := by
      by_cases hk : u.1 = i
      · subst hk
        rw [if_pos rfl]
        unfold modelAdd
        rw [getD_set_self _ hu]
      · rw [if_neg hk]
        unfold modelAdd
        rw [getD_set_ne _ hk, add_zero]
    rw [hpt, List.filter_cons]
    by_cases hk : u.1 = i
    · have hb : (u.1 == i) = true := by simpa using hk
      rw [if_pos hk, if_pos hb, List.map_cons, List.sum_cons, add_assoc]
    · have hb : ¬((u.1 == i) = true) := by simpa using hk
      rw [if_neg hk, if_neg hb, add_zero]

/-- Exchange a fold over an index interval of per-index update folds for a
single filtered fold over the update list. -/
lemma sum_Ico_filter (us : List (Nat × T)) (a b : Nat) :
    (∑ idx ∈ Finset.Ico a b, ((us.filter (fun u => u.1 == idx)).map Prod.snd).sum) =
      rangeFold us a b := by
  induction us with
  | nil => simp [rangeFold]
  | cons u us ih =>
    have hpoint : ∀ idx : Nat,
        ((List.filter (fun w => w.1 == idx) (u :: us)).map Prod.snd).sum =
          (if u.1 = idx then u.2 else 0) +
            ((us.filter (fun w => w.1 == idx)).map Prod.snd).sum := by
      intro idx
      rw [List.filter_cons]
      by_cases hk : u.1 = idx
      · have hb : (u.1 == idx) = true := by simpa using hk
        rw [if_pos hb, if_pos hk, List.map_cons, List.sum_cons]
      · have hb : ¬((u.1 == idx) = true) := by simpa using hk
        rw [if_neg hb, if_neg hk, zero_add]
    rw [Finset.sum_congr rfl (fun idx _ => hpoint idx), Finset.sum_add_distrib,
      Finset.sum_ite_eq _ u.1 (fun _ => u.2), ih]
    unfold rangeFold
    rw [List.filter_cons]
    by_cases hc : a ≤ u.1 ∧ u.1 < b
    · have hb : decide (a ≤ u.1 ∧ u.1 < b) = true := decide_eq_true hc
      rw [if_pos (Finset.mem_Ico.mpr hc), if_pos hb, List.map_cons, List.sum_cons]
    · have hb : ¬(decide (a ≤ u.1 ∧ u.1 < b) = true) := by simpa using hc
      rw [if_neg (fun hmem => hc (Finset.mem_Ico.mp hmem)), if_neg hb, zero_add]

end BIT

/-! ### Union-find: lemmas -/

namespace UnionFind

lemma iterParent_add (p : List Nat) (k1 k2 i : Nat) :
    iterParent p (k1 + k2) i = iterParent p k2 (iterParent p k1 i) := by
  induction k1 generalizing i with
  | zero =>
    rw [Nat.zero_add]
    rfl
  | succ k1 ih =>
    have hstep : k1 + 1 + k2 = (k1 + k2) + 1 := by omega
    rw [hstep]
    show iterParent p (k1 + k2) (parentOf p i) = _
    rw [ih (parentOf p i)]
    rfl

lemma iterParent_fix {p : List Nat} {r : Nat} (h : IsRootIdx p r) (k : Nat) :
    iterParent p k r = r := by
  induction k with
  | zero => rfl
  | succ k ih =>
    show iterParent p k (parentOf p r) = r
    rw [h]
    exact ih

lemma reaches_unique {p : List Nat} {i r r' : Nat} (h1 : Reaches p i r)
    (h2 : Reaches p i r') : r = r' := by
  obtain ⟨k1, hk1, hr1⟩ := h1
  obtain ⟨k2, hk2, hr2⟩ := h2
  rcases Nat.le_total k1 k2 with hle | hle
  · have : iterParent p k2 i = iterParent p (k2 - k1) (iterParent p k1 i) := by
      rw [← iterParent_add]
      congr 1
      omega
    rw [hk2, hk1, iterParent_fix hr1] at this
    exact this.symm
  · have : iterParent p k1 i = iterParent p (k1 - k2) (iterParent p k2 i) := by
      rw [← iterParent_add]
      congr 1
      omega
    rw [hk1, hk2, iterParent_fix hr2] at this
    exact this

lemma reaches_of_root {p : List Nat} {i : Nat} (h : IsRootIdx p i) :
    Reaches p i i := ⟨0, rfl, h⟩

lemma reaches_step {p : List Nat} {i r : Nat}
    (h : Reaches p (parentOf p i) r) : Reaches p i r := by
  obtain ⟨k, hk, hr⟩ := h
  exact ⟨k + 1, hk, hr⟩

lemma reaches_root {p : List Nat} {i r : Nat} (h : Reaches p i r) :
    IsRootIdx p r := h.choose_spec.2

lemma iterParent_lt {p : List Nat} {n : Nat}
    (hb : ∀ x, x < n → parentOf p x < n) {i : Nat} (hi : i < n) (k : Nat) :
    iterParent p k i < n := by
  induction k generalizing i with
  | zero => exact hi
  | succ k ih => exact ih (hb i hi)

/-- If a chain from `i` reaches a root at all, it reaches it in fewer than
`n` steps: a minimal-length chain never repeats a node, and all its nodes
lie below `n`. -/
lemma reach_bound {p : List Nat} {n i r : Nat}
    (hb : ∀ x, x < n → parentOf p x < n) (hi : i < n) (h : Reaches p i r) :
    ∃ k, k < n ∧ iterParent p k i = r := by
  obtain ⟨k0, hk0, hroot⟩ := h
  have hex : ∃ k, iterParent p k i = r := ⟨k0, hk0⟩
  set km := Nat.find hex with hkm
  have hkm_spec : iterParent p km i = r := Nat.find_spec hex
  have hkm_min : ∀ m, m < km → iterParent p m i ≠ r := fun m hm => Nat.find_min hex hm
  refine ⟨km, ?_, hkm_spec⟩
  by_contra hge
  push_neg at hge
  have hinj : Set.InjOn (fun m => iterParent p m i) (Finset.range (km + 1)) := by
    intro m1 hm1 m2 hm2 heq
    simp only [Finset.coe_sort_coe, Finset.mem_coe, Finset.mem_range] at hm1 hm2
    have heq' : iterParent p m1 i = iterParent p m2 i := heq
    by_contra hne
    rcases Nat.lt_or_ge m1 m2 with hlt | hge2
    · have : iterParent p (m1 + (km - m2)) i = r := by
        rw [iterParent_add, heq', ← iterParent_add]
        have : m2 + (km - m2) = km := by omega
        rw [this, hkm_spec]
      exact hkm_min (m1 + (km - m2)) (by omega) this
    · have hlt2 : m2 < m1 := by omega
      have : iterParent p (m2 + (km - m1)) i = r := by
        rw [iterParent_add, ← heq', ← iterParent_add]
        have : m1 + (km - m1) = km := by omega
        rw [this, hkm_spec]
      exact hkm_min (m2 + (km - m1)) (by omega) this
  have hmaps : ∀ m ∈ Finset.range (km + 1),
      (fun m => iterParent p m i) m ∈ Finset.range n := by
    intro m _
    simp only [Finset.mem_range]
    exact iterParent_lt hb hi m
  have hcard := Finset.card_le_card_of_injOn _ hmaps hinj
  simp only [Finset.card_range] at hcard
  omega

lemma findRootAux_some {p : List Nat} {r : Nat} :
    ∀ (fuel : Nat) (i k : Nat), iterParent p k i = r → IsRootIdx p r →
      k < fuel → findRootAux fuel p i = some r := by
  intro fuel
  induction fuel with
  | zero => omega
  | succ fuel ih =>
    intro i k hk hr hfuel
    rw [findRootAux]
    by_cases hroot : parentOf p i = i
    · rw [if_pos hroot]
      have : Reaches p i i := reaches_of_root hroot
      have : i = r := reaches_unique this ⟨k, hk, hr⟩
      rw [this]
    · rw [if_neg hroot]
      rcases k with _ | k'
      · exact absurd (show IsRootIdx p i by rw [show i = r from hk]; exact hr) hroot
      · exact ih (parentOf p i) k' hk hr (by omega)

/-- On a bounded forest where `i` reaches root `r`, the spec-level root
function returns `r`. -/
lemma rootD_eq {uf : UnionFind} {i r : Nat}
    (hb : ∀ x, x < uf.len → parentOf uf.parents x < uf.len)
    (hi : i < uf.len) (h : Reaches uf.parents i r) : rootD uf i = r := by
  obtain ⟨k, hk, hiter⟩ := reach_bound hb hi h
  rw [rootD, findRootAux_some (uf.len + 1) i k hiter (reaches_root h) (by omega)]
  rfl

lemma wf_bounds {uf : UnionFind} (hwf : WF uf) :
    ∀ x, x < uf.len → parentOf uf.parents x < uf.len := hwf.2.2.1

lemma wf_total {uf : UnionFind} (hwf : WF uf) :
    ∀ i, i < uf.len → ∃ r, Reaches uf.parents i r := hwf.2.2.2.1

lemma rootD_reaches {uf : UnionFind} (hwf : WF uf) {i : Nat} (hi : i < uf.len) :
    Reaches uf.parents i (rootD uf i) := by
  obtain ⟨r, hr⟩ := wf_total hwf i hi
  rw [rootD_eq (wf_bounds hwf) hi hr]
  exact hr

lemma rootD_lt {uf : UnionFind} (hwf : WF uf) {i : Nat} (hi : i < uf.len) :
    rootD uf i < uf.len := by
  obtain ⟨k, _, hiter⟩ :=
    reach_bound (wf_bounds hwf) hi (rootD_reaches hwf hi)
  rw [← hiter]
  exact iterParent_lt (wf_bounds hwf) hi k

lemma rootD_isRoot {uf : UnionFind} (hwf : WF uf) {i : Nat} (hi : i < uf.len) :
    IsRootIdx uf.parents (rootD uf i) :=
  reaches_root (rootD_reaches hwf hi)

lemma rootD_of_root {uf : UnionFind} (hwf : WF uf) {r : Nat} (hr : r < uf.len)
    (hroot : IsRootIdx uf.parents r) : rootD uf r = r :=
  rootD_eq (wf_bounds hwf) hr (reaches_of_root hroot)

lemma reaches_rootD_iff {uf : UnionFind} (hwf : WF uf) {i r : Nat}
    (hi : i < uf.len) : Reaches uf.parents i r ↔ rootD uf i = r := by
  constructor
  · exact rootD_eq (wf_bounds hwf) hi
  · rintro rfl
    exact rootD_reaches hwf hi

/-- Path compression step: pointing `v` straight at its root `r` preserves
every reachability fact. -/
lemma reaches_set_compress {p : List Nat} {v r : Nat} (hvr : Reaches p v r)
    (hv : v < p.length) :
    ∀ k i s, IsRootIdx p s → iterParent p k i = s → Reaches (p.set v r) i s := by
  intro k
  induction k using Nat.strong_induction_on with
  | _ k ih =>
    intro i s hs hik
    by_cases hiv : i = v
    · subst hiv
      obtain rfl : s = r := reaches_unique ⟨k, hik, hs⟩ hvr
      have hrootr' : IsRootIdx (p.set i s) s := by
        by_cases hveq : i = s
        · subst hveq
          unfold IsRootIdx parentOf
          rw [getD_set_self _ hv]
        · unfold IsRootIdx parentOf
          rw [getD_set_ne _ hveq]
          exact reaches_root hvr
      refine ⟨1, ?_, hrootr'⟩
      show iterParent (p.set i s) 0 (parentOf (p.set i s) i) = s
      unfold parentOf
      rw [getD_set_self _ hv]
      rfl
    · by_cases hroot : IsRootIdx p i
      · obtain rfl : s = i :=
          (reaches_unique (reaches_of_root hroot) ⟨k, hik, hs⟩).symm
        refine ⟨0, rfl, ?_⟩
        unfold IsRootIdx parentOf
        rw [getD_set_ne _ (Ne.symm hiv)]
        exact hroot
      · rcases k with _ | k'
        · have his : i = s := hik
          exact absurd (show IsRootIdx p i by rw [his]; exact hs) hroot
        · obtain ⟨m, hm, hs'⟩ := ih k' (by omega) (parentOf p i) s hs hik
          refine ⟨m + 1, ?_, hs'⟩
          show iterParent _ m (parentOf (p.set v r) i) = s
          have hpar : parentOf (p.set v r) i = parentOf p i := by
            unfold parentOf
            exact getD_set_ne _ (Ne.symm hiv) _
          rw [hpar]
          exact hm

/-- Corollary form of `reaches_set_compress`. -/
lemma reaches_set_compress' {p : List Nat} {v r : Nat} (hvr : Reaches p v r)
    (hv : v < p.length) {i s : Nat} (h : Reaches p i s) :
    Reaches (p.set v r) i s := by
  obtain ⟨k, hk, hs⟩ := h
  exact reaches_set_compress hvr hv k i s hs hk

/-- Union step: reparenting the root `l` under the distinct root `w` sends
every chain that reached `l` to `w` and leaves all other chains alone. -/
lemma reaches_set_union {p : List Nat} {l w : Nat} (hl : IsRootIdx p l)
    (hw : IsRootIdx p w) (hlw : l ≠ w) (hlen : l < p.length) :
    ∀ k i s, IsRootIdx p s → iterParent p k i = s →
      Reaches (p.set l w) i (if s = l then w else s) := by
  intro k
  induction k using Nat.strong_induction_on with
  | _ k ih =>
    intro i s hs hik
    by_cases hil : i = l
    · have hsl : s = l := by
        have h1 : Reaches p i s := ⟨k, hik, hs⟩
        rw [hil] at h1
        exact (reaches_unique (reaches_of_root hl) h1).symm
      rw [hil, hsl, if_pos rfl]
      have hroot' : IsRootIdx (p.set l w) w := by
        unfold IsRootIdx parentOf
        rw [getD_set_ne _ hlw]
        exact hw
      refine ⟨1, ?_, hroot'⟩
      show iterParent (p.set l w) 0 (parentOf (p.set l w) l) = w
      unfold parentOf
      rw [getD_set_self _ hlen]
      rfl
    · by_cases hroot : IsRootIdx p i
      · obtain rfl : s = i :=
          (reaches_unique (reaches_of_root hroot) ⟨k, hik, hs⟩).symm
        rw [if_neg (fun h => hil h)]
        refine ⟨0, rfl, ?_⟩
        unfold IsRootIdx parentOf
        rw [getD_set_ne _ (Ne.symm hil)]
        exact hroot
      · rcases k with _ | k'
        · have his : i = s := hik
          exact absurd (show IsRootIdx p i by rw [his]; exact hs) hroot
        · obtain ⟨m, hm, hs'⟩ := ih k' (by omega) (parentOf p i) s hs hik
          refine ⟨m + 1, ?_, hs'⟩
          show iterParent _ m (parentOf (p.set l w) i) = _
          have hpar : parentOf (p.set l w) i = parentOf p i := by
            unfold parentOf
            exact getD_set_ne _ (Ne.symm hil) _
          rw [hpar]
          exact hm

/-- Full specification of the compressing root walk: with enough fuel it
returns the chain's root, keeps the array length and the bounds invariant,
preserves every reachability fact, writes the root into the start node's
parent slot, and rewrites parent pointers only to the root of their own
chain. -/
lemma rootAux_spec {p : List Nat}
    (hb : ∀ x, x < p.length → parentOf p x < p.length) :
    ∀ (fuel node r0 : Nat), node < p.length → Reaches p node r0 →
      (∃ k, k < fuel ∧ iterParent p k node = r0) →
      ∃ p', rootAux fuel p node = some (r0, p') ∧
        p'.length = p.length ∧
        (∀ x, x < p'.length → parentOf p' x < p'.length) ∧
        (∀ i s, Reaches p i s → Reaches p' i s) ∧
        parentOf p' node = r0 ∧
        (∀ x, x < p.length → parentOf p' x = parentOf p x ∨
          (Reaches p x r0 ∧ parentOf p' x = r0)) := by
  intro fuel
  induction fuel with
  | zero =>
    intro node r0 _ _ hfuel
    obtain ⟨k, hk, _⟩ := hfuel
    omega
  | succ fuel ih =>
    intro node r0 hnode hreach hfuel
    rw [rootAux]
    by_cases hroot : p.getD node node = node
    · rw [if_neg (fun hne => hne hroot)]
      obtain rfl : node = r0 := reaches_unique (reaches_of_root hroot) hreach
      exact ⟨p, rfl, rfl, hb, fun i s h => h, hroot, fun x _ => Or.inl rfl⟩
    · rw [if_pos hroot]
      obtain ⟨k, hk, hik⟩ := hfuel
      rcases k with _ | k'
      · exact absurd (show IsRootIdx p node by rw [show node = r0 from hik]; exact reaches_root hreach) hroot
      · have hreach' : Reaches p (parentOf p node) r0 := ⟨k', hik, reaches_root hreach⟩
        have hnode' : parentOf p node < p.length := hb node hnode
        obtain ⟨p₁, hrec, hlen₁, hb₁, hfwd₁, _, honly₁⟩ :=
          ih (parentOf p node) r0 hnode' hreach' ⟨k', by omega, hik⟩
        rw [show p.getD node node = parentOf p node from rfl, hrec]
        have hr0 : r0 < p.length := by
          obtain ⟨kk, hkk, hroot0⟩ := hreach
          rw [← hkk]
          exact iterParent_lt hb hnode kk
        have hnode₁ : node < p₁.length := by omega
        have hreach₁ : Reaches p₁ node r0 := hfwd₁ node r0 hreach
        refine ⟨p₁.set node r0, rfl, ?_, ?_, ?_, ?_, ?_⟩
        · rw [List.length_set]
          exact hlen₁
        · intro x hx
          rw [List.length_set] at hx ⊢
          by_cases hxn : x = node
          · subst hxn
            unfold parentOf
            rw [getD_set_self _ hnode₁]
            omega
          · unfold parentOf
            rw [getD_set_ne _ (Ne.symm hxn)]
            exact hb₁ x hx
        · intro i s h
          exact reaches_set_compress' hreach₁ hnode₁ (hfwd₁ i s h)
        · unfold parentOf
          rw [getD_set_self _ hnode₁]
        · intro x hx
          by_cases hxn : x = node
          · subst hxn
            right
            refine ⟨hreach, ?_⟩
            unfold parentOf
            rw [getD_set_self _ hnode₁]
          · have : parentOf (p₁.set node r0) x = parentOf p₁ x := by
              unfold parentOf
              exact getD_set_ne _ (Ne.symm hxn) _
            rw [this]
            exact honly₁ x hx

lemma wf_sizes {uf : UnionFind} (hwf : WF uf) :
    ∀ r, r < uf.len → IsRootIdx uf.parents r →
      uf.size.getD r 0 =
        ((Finset.range uf.len).filter (fun i => rootD uf i = r)).card :=
  hwf.2.2.2.2

/-- Transport of the invariant along a state change that keeps the length
and the size array and only rewires parents without losing any
reachability fact. -/
lemma wf_transport {uf uf2 : UnionFind} (hwf : WF uf)
    (hlen : uf2.len = uf.len) (hrank : uf2.rank.length = uf.len)
    (hsize : uf2.size = uf.size)
    (hb2 : ∀ x, x < uf2.len → parentOf uf2.parents x < uf2.len)
    (hfwd : ∀ i s, Reaches uf.parents i s → Reaches uf2.parents i s) :
    WF uf2 ∧ (∀ i, i < uf.len → rootD uf2 i = rootD uf i) := by
  have hpres : ∀ i, i < uf.len → rootD uf2 i = rootD uf i := by
    intro i hi
    exact rootD_eq hb2 (by omega) (hfwd i _ (rootD_reaches hwf hi))
  refine ⟨⟨by rw [hrank, hlen], by rw [hsize, hwf.2.1, hlen], hb2, ?_, ?_⟩, hpres⟩
  · intro i hi
    obtain ⟨r, hr⟩ := wf_total hwf i (by omega)
    exact ⟨r, hfwd i r hr⟩
  · intro r hr hroot2
    have hrn : r < uf.len := by omega
    have hrootp : IsRootIdx uf.parents r := by
      obtain ⟨sr, hsr⟩ := wf_total hwf r hrn
      have h2 := hfwd r sr hsr
      have h3 : sr = r := reaches_unique h2 (reaches_of_root hroot2)
      rw [← h3]
      exact reaches_root hsr
    rw [hsize, wf_sizes hwf r hrn hrootp, hlen]
    congr 1
    refine Finset.filter_congr ?_
    intro i hi
    rw [hpres i (Finset.mem_range.mp hi)]

/-- Operation-level specification of `UnionFind::root`: it succeeds on
well-formed states, returns the spec-level root, touches only `parents`,
and preserves the whole logical partition. -/
lemma root_spec {uf : UnionFind} (hwf : WF uf) {node : Nat}
    (hnode : node < uf.len) :
    ∃ uf1 : UnionFind, uf.root node = some (rootD uf node, uf1) ∧
      WF uf1 ∧ uf1.len = uf.len ∧ uf1.rank = uf.rank ∧ uf1.size = uf.size ∧
      (∀ i, i < uf.len → rootD uf1 i = rootD uf i) ∧
      (∀ i s, Reaches uf.parents i s → Reaches uf1.parents i s) ∧
      parentOf uf1.parents node = rootD uf node ∧
      (∀ i, i < uf.len → parentOf uf1.parents i = parentOf uf.parents i ∨
        (Reaches uf.parents i (rootD uf node) ∧
          parentOf uf1.parents i = rootD uf node)) := by
  have hreach := rootD_reaches hwf hnode
  have hfuel := reach_bound (wf_bounds hwf) hnode hreach
  obtain ⟨p', hrun, hlen', hb', hfwd', hpar', honly'⟩ :=
    rootAux_spec (wf_bounds hwf) uf.len node (rootD uf node) hnode hreach hfuel
  have hlen1 : (⟨p', uf.rank, uf.size⟩ : UnionFind).len = uf.len := hlen'
  obtain ⟨hwf1, hpres⟩ := wf_transport hwf hlen1 hwf.1 rfl hb' hfwd'
  refine ⟨⟨p', uf.rank, uf.size⟩, ?_, hwf1, hlen1, rfl, rfl, hpres, hfwd', hpar',
    honly'⟩
  rw [root, hrun]
  rfl

/-- Corollary form of `reaches_set_union`. -/
lemma reaches_set_union' {p : List Nat} {l w : Nat} (hl : IsRootIdx p l)
    (hw : IsRootIdx p w) (hlw : l ≠ w) (hlen : l < p.length) {i s : Nat}
    (h : Reaches p i s) : Reaches (p.set l w) i (if s = l then w else s) := by
  obtain ⟨k, hk, hs⟩ := h
  exact reaches_set_union hl hw hlw hlen k i s hs hk

/-- The union step `parents[l] = w` (both roots, `l ≠ w`) keeps the
invariant once the size stored at `w` absorbs the size stored at `l`, and
redirects exactly the chains that used to end at `l`. -/
lemma wf_union {uf : UnionFind} (hwf : WF uf) {l w : Nat}
    (hl : IsRootIdx uf.parents l) (hwroot : IsRootIdx uf.parents w)
    (hlw : l ≠ w) (hln : l < uf.len) (hwn : w < uf.len)
    (rank' : List Nat) (hrank' : rank'.length = uf.len) :
    WF ⟨uf.parents.set l w, rank',
        uf.size.set w (uf.size.getD w 0 + uf.size.getD l 0)⟩ ∧
    (∀ i, i < uf.len →
      rootD (⟨uf.parents.set l w, rank',
        uf.size.set w (uf.size.getD w 0 + uf.size.getD l 0)⟩ : UnionFind) i =
        if rootD uf i = l then w else rootD uf i) := by
  have hbl : l < uf.parents.length := hln
  have hlen' : (⟨uf.parents.set l w, rank',
      uf.size.set w (uf.size.getD w 0 + uf.size.getD l 0)⟩ : UnionFind).len =
      uf.len := by
    show (uf.parents.set l w).length = uf.parents.length
    exact List.length_set ..
  have hb' : ∀ x, x < (uf.parents.set l w).length →
      parentOf (uf.parents.set l w) x < (uf.parents.set l w).length := by
    intro x hx
    rw [List.length_set] at hx ⊢
    by_cases hxl : x = l
    · subst hxl
      unfold parentOf
      rw [getD_set_self _ hbl]
      exact hwn
    · unfold parentOf
      rw [getD_set_ne _ (Ne.symm hxl)]
      exact wf_bounds hwf x hx
  have hfwd : ∀ i s, Reaches uf.parents i s →
      Reaches (uf.parents.set l w) i (if s = l then w else s) := by
    intro i s h
    exact reaches_set_union' hl hwroot hlw hbl h
  have hpres : ∀ i, i < uf.len →
      rootD (⟨uf.parents.set l w, rank',
        uf.size.set w (uf.size.getD w 0 + uf.size.getD l 0)⟩ : UnionFind) i =
        if rootD uf i = l then w else rootD uf i := by
    intro i hi
    exact rootD_eq hb' (by rw [hlen']; exact hi)
      (hfwd i (rootD uf i) (rootD_reaches hwf hi))
  refine ⟨⟨?_, ?_, hb', ?_, ?_⟩, hpres⟩
  · rw [hlen']
    exact hrank'
  · show (uf.size.set w _).length = (uf.parents.set l w).length
    rw [List.length_set, List.length_set]
    exact hwf.2.1
  · intro i hi
    have hi' : i < uf.len := by rw [← hlen']; exact hi
    obtain ⟨r, hr⟩ := wf_total hwf i hi'
    exact ⟨if r = l then w else r, hfwd i r hr⟩
  · intro r hr hroot'
    rw [hlen'] at hr
    -- the new roots are the old roots other than l
    have hrl : r ≠ l := by
      intro hrleq
      have h2 : parentOf (uf.parents.set l w) r = r := hroot'
      rw [hrleq] at h2
      unfold parentOf at h2
      rw [getD_set_self _ hbl] at h2
      exact hlw h2.symm
    have hrootp : IsRootIdx uf.parents r := by
      unfold IsRootIdx parentOf at hroot' ⊢
      rw [getD_set_ne _ (Ne.symm hrl)] at hroot'
      exact hroot'
    by_cases hrw : r = w
    · rw [hrw]
      show (uf.size.set w _).getD w 0 = _
      rw [getD_set_self _ (by rw [hwf.2.1]; exact hwn)]
      have hsplit : (Finset.range ((⟨uf.parents.set l w, rank',
          uf.size.set w (uf.size.getD w 0 + uf.size.getD l 0)⟩ :
            UnionFind).len)).filter
          (fun i => rootD (⟨uf.parents.set l w, rank',
            uf.size.set w (uf.size.getD w 0 + uf.size.getD l 0)⟩ :
              UnionFind) i = w) =
          ((Finset.range uf.len).filter (fun i => rootD uf i = w)) ∪
            ((Finset.range uf.len).filter (fun i => rootD uf i = l)) := by
        rw [hlen', ← Finset.filter_or]
        refine Finset.filter_congr ?_
        intro i hi
        rw [hpres i (Finset.mem_range.mp hi)]
        by_cases hyl : rootD uf i = l
        · rw [if_pos hyl]
          simp [hyl]
        · rw [if_neg hyl]
          constructor
          · exact fun h => Or.inl h
          · rintro (h | h)
            · exact h
            · exact absurd h hyl
      rw [hsplit, Finset.card_union_of_disjoint, wf_sizes hwf w hwn hwroot,
        wf_sizes hwf l hln hl]
      rw [Finset.disjoint_left]
      intro x hx1 hx2
      rw [Finset.mem_filter] at hx1 hx2
      have hwl : w = l := by
        rw [← hx1.2]
        exact hx2.2
      exact hlw hwl.symm
    · show (uf.size.set w _).getD r 0 = _
      rw [getD_set_ne _ (fun h => hrw h.symm)]
      rw [wf_sizes hwf r hr hrootp]
      congr 1
      rw [hlen']
      refine Finset.filter_congr ?_
      intro i hi
      rw [hpres i (Finset.mem_range.mp hi)]
      by_cases hyl : rootD uf i = l
      · rw [if_pos hyl, hyl]
        constructor
        · exact fun h => absurd h.symm hrl
        · exact fun h => absurd h.symm hrw
      · rw [if_neg hyl]

/-- Consequences of the union step, phrased against the original state
`uf` (the state `uf2` is `uf` after the two compressing root calls). -/
lemma merge_post {uf uf2 : UnionFind} (hwf : WF uf) (hwf2 : WF uf2)
    (hlen2' : uf2.len = uf.len) (hsize2' : uf2.size = uf.size)
    (hpres21 : ∀ i, i < uf.len → rootD uf2 i = rootD uf i)
    {w l : Nat} (hwroot : IsRootIdx uf2.parents w)
    (hlroot : IsRootIdx uf2.parents l) (hlw : l ≠ w) (hwn : w < uf.len)
    (hln : l < uf.len) (rank' : List Nat) (hrank' : rank'.length = uf2.len) :
    WF ⟨uf2.parents.set l w, rank',
        uf2.size.set w (uf2.size.getD w 0 + uf2.size.getD l 0)⟩ ∧
    (⟨uf2.parents.set l w, rank',
        uf2.size.set w (uf2.size.getD w 0 + uf2.size.getD l 0)⟩ :
      UnionFind).len = uf.len ∧
    parentOf (uf2.parents.set l w) l = w ∧
    IsRootIdx (uf2.parents.set l w) w ∧
    (uf2.size.set w (uf2.size.getD w 0 + uf2.size.getD l 0)).getD w 0 =
      uf.size.getD w 0 + uf.size.getD l 0 ∧
    (∀ i, i < uf.len →
      rootD (⟨uf2.parents.set l w, rank',
        uf2.size.set w (uf2.size.getD w 0 + uf2.size.getD l 0)⟩ :
          UnionFind) i = if rootD uf i = l then w else rootD uf i) := by
  have hln2 : l < uf2.len := by omega
  have hwn2 : w < uf2.len := by omega
  obtain ⟨hwfU, hpresU⟩ :=
    wf_union hwf2 hlroot hwroot hlw hln2 hwn2 rank' (by rw [hrank', hlen2'])
  have hlenU : (⟨uf2.parents.set l w, rank',
      uf2.size.set w (uf2.size.getD w 0 + uf2.size.getD l 0)⟩ :
        UnionFind).len = uf.len := by
    show (uf2.parents.set l w).length = uf.len
    rw [List.length_set]
    exact hlen2'
  refine ⟨hwfU, hlenU, ?_, ?_, ?_, ?_⟩
  · unfold parentOf
    rw [getD_set_self _ (show l < uf2.parents.length from hln2)]
  · unfold IsRootIdx parentOf
    rw [getD_set_ne _ hlw]
    exact hwroot
  · rw [getD_set_self _ (by rw [hwf2.2.1]; exact hwn2), hsize2']
  · intro i hi
    rw [hpresU i (by omega), hpres21 i hi]

lemma new_len (n : Nat) : (UnionFind.new n).len = n := by
  simp [UnionFind.new, len]

lemma parentOf_new {n i : Nat} (hi : i < n) :
    parentOf (UnionFind.new n).parents i = i := by
  unfold parentOf
  exact getD_range hi i

lemma wf_new (n : Nat) : WF (UnionFind.new n) := by
  have hlen := new_len n
  have hb : ∀ x, x < (UnionFind.new n).len →
      parentOf (UnionFind.new n).parents x < (UnionFind.new n).len := by
    intro x hx
    rw [parentOf_new (by omega)]
    exact hx
  have hroot : ∀ i, i < n → IsRootIdx (UnionFind.new n).parents i := by
    intro i hi
    exact parentOf_new hi
  have hrootD : ∀ i, i < n → rootD (UnionFind.new n) i = i := by
    intro i hi
    exact rootD_eq hb (by omega) (reaches_of_root (hroot i hi))
  refine ⟨by simp [UnionFind.new, len], by simp [UnionFind.new, len], hb, ?_, ?_⟩
  · intro i hi
    exact ⟨i, reaches_of_root (hroot i (by omega))⟩
  · intro r hr hrootr
    have hrn : r < n := by omega
    have hsz : (UnionFind.new n).size.getD r 0 = 1 := by
      show (List.replicate n 1).getD r 0 = 1
      rw [getD_replicate, if_pos hrn]
    rw [hsz]
    have hfe : (Finset.range (UnionFind.new n).len).filter
        (fun i => rootD (UnionFind.new n) i = r) =
        (Finset.range (UnionFind.new n).len).filter (fun i => i = r) := by
      refine Finset.filter_congr ?_
      intro i hi
      rw [hrootD i (by have := Finset.mem_range.mp hi; omega)]
    rw [hfe, Finset.filter_eq', if_pos (by rw [hlen]; exact Finset.mem_range.mpr hrn)]
    rfl

/-- Operation-level specification of `UnionFind::merge`: it succeeds on
well-formed states; equal roots leave the partition, ranks and sizes
unchanged; distinct roots attach the losing root under the winning root,
add the sizes, and bump the winner's rank exactly on rank ties. -/
lemma merge_spec {uf : UnionFind} (hwf : WF uf) {a b : Nat}
    (ha : a < uf.len) (hb : b < uf.len) :
    ∃ uf' : UnionFind, uf.merge a b = some uf' ∧ WF uf' ∧ uf'.len = uf.len ∧
      (rootD uf a = rootD uf b →
        uf'.rank = uf.rank ∧ uf'.size = uf.size ∧
        (∀ i, i < uf.len → rootD uf' i = rootD uf i)) ∧
      (rootD uf a ≠ rootD uf b →
        parentOf uf'.parents (mergeLoser uf a b) = mergeWinner uf a b ∧
        IsRootIdx uf'.parents (mergeWinner uf a b) ∧
        uf'.size.getD (mergeWinner uf a b) 0 =
          uf.size.getD (rootD uf a) 0 + uf.size.getD (rootD uf b) 0 ∧
        uf'.rank.getD (mergeWinner uf a b) 0 =
          uf.rank.getD (mergeWinner uf a b) 0 +
            (if uf.rank.getD (rootD uf a) 0 = uf.rank.getD (rootD uf b) 0
              then 1 else 0) ∧
        (∀ i, i < uf.len → rootD uf' i =
          if rootD uf i = mergeLoser uf a b then mergeWinner uf a b
          else rootD uf i)) := by
  obtain ⟨uf1, hroot_a, hwf1, hlen1, hrank1, hsize1, hpres1, hfwd1, _, _⟩ :=
    root_spec hwf ha
  have hb1 : b < uf1.len := by omega
  obtain ⟨uf2, hroot_b, hwf2, hlen2, hrank2, hsize2, hpres2, hfwd2, _, _⟩ :=
    root_spec hwf1 hb1
  have hrb1 : rootD uf1 b = rootD uf b := hpres1 b hb
  have hlen2' : uf2.len = uf.len := by omega
  have hrank2' : uf2.rank = uf.rank := by rw [hrank2, hrank1]
  have hsize2' : uf2.size = uf.size := by rw [hsize2, hsize1]
  have hpres21 : ∀ i, i < uf.len → rootD uf2 i = rootD uf i := by
    intro i hi
    rw [hpres2 i (by omega), hpres1 i hi]
  have hra_lt : rootD uf a < uf.len := rootD_lt hwf ha
  have hrb_lt : rootD uf b < uf.len := rootD_lt hwf hb
  have hroot_transfer : ∀ r, IsRootIdx uf.parents r →
      IsRootIdx uf2.parents r := by
    intro r hrt
    exact reaches_root (hfwd2 r r (hfwd1 r r (reaches_of_root hrt)))
  have hra_root2 : IsRootIdx uf2.parents (rootD uf a) :=
    hroot_transfer _ (rootD_isRoot hwf ha)
  have hrb_root2 : IsRootIdx uf2.parents (rootD uf b) :=
    hroot_transfer _ (rootD_isRoot hwf hb)
  simp only [merge, hroot_a, hroot_b, hrb1]
  by_cases heq : rootD uf a = rootD uf b
  · rw [if_pos heq]
    exact ⟨uf2, rfl, hwf2, hlen2',
      fun _ => ⟨hrank2', hsize2', hpres21⟩, fun hn => absurd heq hn⟩
  · rw [if_neg heq]
    by_cases hcmp : uf2.rank.getD (rootD uf a) 0 < uf2.rank.getD (rootD uf b) 0
    · -- winner is b's root, no rank change
      have hcmpU : uf.rank.getD (rootD uf a) 0 < uf.rank.getD (rootD uf b) 0 := by
        rw [← hrank2']
        exact hcmp
      have hW : mergeWinner uf a b = rootD uf b := by
        rw [mergeWinner, if_pos hcmpU]
      have hL : mergeLoser uf a b = rootD uf a := by
        rw [mergeLoser, if_pos hcmpU]
      rw [if_pos hcmp]
      dsimp only
      rw [if_neg (show ¬(uf2.rank.getD (rootD uf b) 0 =
        uf2.rank.getD (rootD uf a) 0) from ne_of_gt hcmp)]
      obtain ⟨hwfU, hlenU, hparU, hrootU, hsizeU, hpresU⟩ :=
        merge_post hwf hwf2 hlen2' hsize2' hpres21 hrb_root2 hra_root2 heq
          hrb_lt hra_lt uf2.rank hwf2.1
      refine ⟨_, rfl, hwfU, hlenU, fun hcon => absurd hcon heq, fun _ => ?_⟩
      rw [hW, hL]
      refine ⟨hparU, hrootU, ?_, ?_, hpresU⟩
      · rw [hsizeU]
        omega
      · show uf2.rank.getD (rootD uf b) 0 = _
        rw [if_neg (ne_of_lt hcmpU), hrank2', add_zero]
    · rw [if_neg hcmp]
      dsimp only
      have hcmpU : ¬(uf.rank.getD (rootD uf a) 0 <
          uf.rank.getD (rootD uf b) 0) := by
        rw [← hrank2']
        exact hcmp
      have hW : mergeWinner uf a b = rootD uf a := by
        rw [mergeWinner, if_neg hcmpU]
      have hL : mergeLoser uf a b = rootD uf b := by
        rw [mergeLoser, if_neg hcmpU]
      have hne' : rootD uf b ≠ rootD uf a := fun h => heq h.symm
      by_cases hreq : uf2.rank.getD (rootD uf a) 0 = uf2.rank.getD (rootD uf b) 0
      · -- rank tie: a's root survives with rank + 1
        have hreqU : uf.rank.getD (rootD uf a) 0 = uf.rank.getD (rootD uf b) 0 := by
          rw [← hrank2']
          exact hreq
        rw [if_pos hreq]
        obtain ⟨hwfU, hlenU, hparU, hrootU, hsizeU, hpresU⟩ :=
          merge_post hwf hwf2 hlen2' hsize2' hpres21 hra_root2 hrb_root2 hne'
            hra_lt hrb_lt
            (uf2.rank.set (rootD uf a) (uf2.rank.getD (rootD uf a) 0 + 1))
            (by rw [List.length_set]; exact hwf2.1)
        refine ⟨_, rfl, hwfU, hlenU, fun hcon => absurd hcon heq, fun _ => ?_⟩
        rw [hW, hL]
        refine ⟨hparU, hrootU, ?_, ?_, hpresU⟩
        · rw [hsizeU]
        · show (uf2.rank.set (rootD uf a) _).getD (rootD uf a) 0 = _
          rw [getD_set_self _ (by rw [hwf2.1]; omega), if_pos hreqU, hrank2']
      · -- a's root survives with its rank kept
        have hreqU : ¬(uf.rank.getD (rootD uf a) 0 =
            uf.rank.getD (rootD uf b) 0) := by
          rw [← hrank2']
          exact hreq
        rw [if_neg hreq]
        obtain ⟨hwfU, hlenU, hparU, hrootU, hsizeU, hpresU⟩ :=
          merge_post hwf hwf2 hlen2' hsize2' hpres21 hra_root2 hrb_root2 hne'
            hra_lt hrb_lt uf2.rank hwf2.1
        refine ⟨_, rfl, hwfU, hlenU, fun hcon => absurd hcon heq, fun _ => ?_⟩
        rw [hW, hL]
        refine ⟨hparU, hrootU, ?_, ?_, hpresU⟩
        · rw [hsizeU]
        · show uf2.rank.getD (rootD uf a) 0 = _
          rw [if_neg hreqU, hrank2', add_zero]

/-- Operation-level specification of `UnionFind::is_same`: it returns
whether the two spec-level roots agree, and only compresses paths. -/
lemma is_same_spec {uf : UnionFind} (hwf : WF uf) {a b : Nat}
    (ha : a < uf.len) (hb : b < uf.len) :
    ∃ uf2 : UnionFind,
      uf.is_same a b = some (rootD uf a == rootD uf b, uf2) ∧
      WF uf2 ∧ uf2.len = uf.len ∧ uf2.rank = uf.rank ∧ uf2.size = uf.size ∧
      (∀ i, i < uf.len → rootD uf2 i = rootD uf i) := by
  obtain ⟨uf1, hroot_a, hwf1, hlen1, hrank1, hsize1, hpres1, _, _, _⟩ :=
    root_spec hwf ha
  have hb1 : b < uf1.len := by omega
  obtain ⟨uf2, hroot_b, hwf2, hlen2, hrank2, hsize2, hpres2, _, _, _⟩ :=
    root_spec hwf1 hb1
  have hrb1 : rootD uf1 b = rootD uf b := hpres1 b hb
  refine ⟨uf2, ?_, hwf2, by omega, by rw [hrank2, hrank1],
    by rw [hsize2, hsize1], ?_⟩
  · simp only [is_same, hroot_a, hroot_b, hrb1]
  · intro i hi
    rw [hpres2 i (by omega), hpres1 i hi]

/-- Operation-level specification of `UnionFind::size`: it returns the
stored size of the argument's root, and only compresses paths. -/
lemma sizeOp_spec {uf : UnionFind} (hwf : WF uf) {x : Nat}
    (hx : x < uf.len) :
    ∃ uf1 : UnionFind,
      uf.sizeOp x = some (uf.size.getD (rootD uf x) 0, uf1) ∧
      WF uf1 ∧ uf1.len = uf.len ∧ uf1.rank = uf.rank ∧ uf1.size = uf.size ∧
      (∀ i, i < uf.len → rootD uf1 i = rootD uf i) := by
  obtain ⟨uf1, hroot_x, hwf1, hlen1, hrank1, hsize1, hpres1, _, _, _⟩ :=
    root_spec hwf hx
  refine ⟨uf1, ?_, hwf1, hlen1, hrank1, hsize1, hpres1⟩
  simp only [sizeOp, hroot_x, hsize1]

/-- Specification of the compression loop of `groups`: afterwards every
in-bounds parent pointer points directly at its chain's root, and the
logical partition is untouched. -/
lemma compressAll_spec {uf : UnionFind} (hwf : WF uf) :
    ∃ uf1 : UnionFind, uf.compressAll = some uf1 ∧
      WF uf1 ∧ uf1.len = uf.len ∧ uf1.rank = uf.rank ∧ uf1.size = uf.size ∧
      (∀ i, i < uf.len → rootD uf1 i = rootD uf i) ∧
      (∀ i, i < uf.len → parentOf uf1.parents i = rootD uf i) := by
  have hmain : ∀ (l : List Nat), (∀ j ∈ l, j < uf.len) →
      ∀ (u : UnionFind), WF u → u.len = uf.len → u.rank = uf.rank →
        u.size = uf.size → (∀ i, i < uf.len → rootD u i = rootD uf i) →
        ∃ u' : UnionFind,
          l.foldlM (fun v i => (v.root i).map Prod.snd) u = some u' ∧
          WF u' ∧ u'.len = uf.len ∧ u'.rank = uf.rank ∧ u'.size = uf.size ∧
          (∀ i, i < uf.len → rootD u' i = rootD uf i) ∧
          (∀ i, i < uf.len → parentOf u.parents i = rootD u i →
            parentOf u'.parents i = rootD u' i) ∧
          (∀ j ∈ l, parentOf u'.parents j = rootD u' j) := by
    intro l
    induction l with
    | nil =>
      intro _ u hwfu hlenu hranku hsizeu hpresu
      exact ⟨u, rfl, hwfu, hlenu, hranku, hsizeu, hpresu,
        fun i _ h => h, fun j hj => absurd hj (List.not_mem_nil j)⟩
    | cons x l ih =>
      intro hmem u hwfu hlenu hranku hsizeu hpresu
      have hx : x < u.len := by
        have := hmem x (List.mem_cons_self x l)
        omega
      obtain ⟨u1, hroot_x, hwfu1, hlenu1, hranku1, hsizeu1, hpresu1, hfwdu1,
        hparu1, honly1⟩ := root_spec hwfu hx
      obtain ⟨u', hrun, hwfu', hlen', hrank', hsize', hpres', hkeep', hdone'⟩ :=
        ih (fun j hj => hmem j (List.mem_cons_of_mem x hj)) u1 hwfu1
          (by omega) (hranku1.trans hranku) (hsizeu1.trans hsizeu)
          (fun i hi => (hpresu1 i (by omega)).trans (hpresu i hi))
      have hcomp1 : ∀ i, i < uf.len → parentOf u.parents i = rootD u i →
          parentOf u1.parents i = rootD u1 i := by
        intro i hi hcomp
        have hiu : i < u.len := by omega
        rcases honly1 i hiu with hsame | ⟨hre, hset⟩
        · rw [hsame, hcomp, hpresu1 i hiu]
        · rw [hset, hpresu1 i hiu]
          exact (rootD_eq (wf_bounds hwfu) hiu hre).symm
      refine ⟨u', ?_, hwfu', hlen', hrank', hsize', hpres', ?_, ?_⟩
      · rw [List.foldlM_cons, hroot_x]
        simpa using hrun
      · intro i hi hcomp
        exact hkeep' i hi (hcomp1 i hi hcomp)
      · intro j hj
        rcases List.mem_cons.mp hj with rfl | hjl
        · refine hkeep' j (by omega) ?_
          rw [hparu1, hpresu1 j (by omega)]
        · exact hdone' j hjl
  obtain ⟨uf1, hrun, hwf1, hlen1, hrank1, hsize1, hpres1, _, hdone⟩ :=
    hmain (List.range uf.len) (fun j hj => List.mem_range.mp hj) uf hwf rfl
      rfl rfl (fun i _ => rfl)
  refine ⟨uf1, ?_, hwf1, hlen1, hrank1, hsize1, hpres1, ?_⟩
  · rw [compressAll]
    exact hrun
  · intro i hi
    rw [hdone i (List.mem_range.mpr hi), hpres1 i hi]

lemma buildGroups_fold_length (parents : List Nat) (idxs : List Nat)
    (ret : List (List Nat)) :
    (idxs.foldl (fun ret i => ret.set (parents.getD i i)
      (ret.getD (parents.getD i i) [] ++ [i])) ret).length = ret.length := by
  induction idxs generalizing ret with
  | nil => rfl
  | cons x idxs ih =>
    rw [List.foldl_cons, ih, List.length_set]

lemma buildGroups_fold_getD (parents : List Nat) (idxs : List Nat) :
    ∀ (ret : List (List Nat)) (r : Nat), r < ret.length →
      (idxs.foldl (fun ret i => ret.set (parents.getD i i)
        (ret.getD (parents.getD i i) [] ++ [i])) ret).getD r [] =
      ret.getD r [] ++ idxs.filter (fun i => parents.getD i i == r) := by
  induction idxs with
  | nil =>
    intro ret r _
    simp
  | cons x idxs ih =>
    intro ret r hr
    rw [List.foldl_cons]
    have hlen2 : (ret.set (parents.getD x x)
        (ret.getD (parents.getD x x) [] ++ [x])).length = ret.length :=
      List.length_set ..
    rw [ih _ r (by rw [hlen2]; exact hr)]
    rw [List.filter_cons]
    by_cases hx : parents.getD x x = r
    · have hbx : (parents.getD x x == r) = true := by simpa using hx
      rw [if_pos hbx, hx, getD_set_self _ hr, List.append_assoc,
        List.singleton_append]
    · have hbx : ¬((parents.getD x x == r) = true) := by simpa using hx
      rw [if_neg hbx, getD_set_ne _ hx]

/-- The bucket array built by `groups` is, bucket by bucket, the list of
indices whose (direct) parent is that bucket's number. -/
lemma buildGroups_eq (parents : List Nat) (len : Nat) :
    buildGroups parents len = (List.range len).map
      (fun r => (List.range len).filter (fun i => parents.getD i i == r)) := by
  apply List.ext_getElem
  · rw [buildGroups, buildGroups_fold_length]
    simp
  · intro r h1 h2
    have hrlen : r < len := by
      rw [buildGroups, buildGroups_fold_length] at h1
      simpa using h1
    rw [List.getElem_map, List.getElem_range,
      ← List.getD_eq_getElem (buildGroups parents len) [] h1, buildGroups,
      buildGroups_fold_getD parents (List.range len)
        (List.replicate len []) r
        (by rw [List.length_replicate]; exact hrlen),
      getD_replicate_self, List.nil_append]

/-- Operation-level specification of `UnionFind::groups`: the returned
list is, up to dropping empty buckets, one bucket per potential root
`r < len` holding exactly the indices whose root is `r`. -/
lemma groups_spec {uf : UnionFind} (hwf : WF uf) :
    ∃ uf1 : UnionFind, uf.groups = some
      (((List.range uf.len).map (fun r =>
          (List.range uf.len).filter (fun i => rootD uf i == r))).filter
        (fun v => !v.isEmpty), uf1) ∧
      WF uf1 ∧ uf1.len = uf.len ∧ uf1.rank = uf.rank ∧ uf1.size = uf.size ∧
      (∀ i, i < uf.len → rootD uf1 i = rootD uf i) := by
  obtain ⟨uf1, hrun, hwf1, hlen1, hrank1, hsize1, hpres1, hdone⟩ :=
    compressAll_spec hwf
  refine ⟨uf1, ?_, hwf1, hlen1, hrank1, hsize1, hpres1⟩
  simp only [groups, hrun]
  have hbg : buildGroups uf1.parents uf.len = (List.range uf.len).map
      (fun r => (List.range uf.len).filter (fun i => rootD uf i == r)) := by
    rw [buildGroups_eq]
    refine List.map_congr_left ?_
    intro r _
    refine List.filter_congr ?_
    intro i hi
    have hi' : i < uf.len := List.mem_range.mp hi
    have : uf1.parents.getD i i = rootD uf i := hdone i hi'
    rw [this]
  rw [hbg]

/-- Every reachable state satisfies the structural invariant: this is the
induction tying the operation specifications together. -/
lemma reachable_wf {uf : UnionFind} (h : Reachable uf) : WF uf := by
  induction h with
  | new n => exact wf_new n
  | merge huf ha hb hm ih =>
    obtain ⟨uf2, hrun, hwf2, _⟩ := merge_spec ih ha hb
    rw [hm] at hrun
    obtain rfl := Option.some.inj hrun
    exact hwf2
  | sameCall huf ha hb hm ih =>
    obtain ⟨uf2, hrun, hwf2, _⟩ := is_same_spec ih ha hb
    rw [hm] at hrun
    obtain rfl := Option.some.inj hrun
    exact hwf2
  | sizeCall huf hx hm ih =>
    obtain ⟨uf2, hrun, hwf2, _⟩ := sizeOp_spec ih hx
    rw [hm] at hrun
    obtain rfl := Option.some.inj hrun
    exact hwf2
  | groupsCall huf hm ih =>
    obtain ⟨uf2, hrun, hwf2, _⟩ := groups_spec ih
    rw [hm] at hrun
    obtain rfl := Option.some.inj hrun
    exact hwf2

/-- The value computed by `is_same` is the comparison of the two
spec-level roots. -/
lemma isSameVal_eq {uf : UnionFind} (hwf : WF uf) {a b : Nat}
    (ha : a < uf.len) (hb : b < uf.len) :
    isSameVal uf a b = some (rootD uf a == rootD uf b) := by
  obtain ⟨uf2, hrun, _⟩ := is_same_spec hwf ha hb
  rw [isSameVal, hrun]
  rfl

lemma rootD_new {n i : Nat} (hi : i < n) : rootD (UnionFind.new n) i = i :=
  rootD_of_root (wf_new n) (by rw [new_len]; omega) (parentOf_new hi)

/-- Two states with the same length, the same size array and the same
spec-level roots are indistinguishable through the three read
operations. -/
lemma reads_agree {uf uf2 : UnionFind} (hwf : WF uf) (hwf2 : WF uf2)
    (hlen : uf2.len = uf.len) (hsize : uf2.size = uf.size)
    (hpres : ∀ i, i < uf.len → rootD uf2 i = rootD uf i) :
    (∀ x y, x < uf.len → y < uf.len →
      isSameVal uf2 x y = isSameVal uf x y) ∧
    (∀ x, x < uf.len →
      (uf2.sizeOp x).map Prod.fst = (uf.sizeOp x).map Prod.fst) ∧
    (uf2.groups).map Prod.fst = (uf.groups).map Prod.fst := by
  refine ⟨?_, ?_, ?_⟩
  · intro x y hx hy
    rw [isSameVal_eq hwf2 (by omega) (by omega), isSameVal_eq hwf hx hy,
      hpres x hx, hpres y hy]
  · intro x hx
    obtain ⟨u1, hrun1, _⟩ := sizeOp_spec hwf2 (show x < uf2.len by omega)
    obtain ⟨u2, hrun2, _⟩ := sizeOp_spec hwf hx
    rw [hrun1, hrun2, Option.map_some', Option.map_some']
    show some (uf2.size.getD (rootD uf2 x) 0) =
      some (uf.size.getD (rootD uf x) 0)
    rw [hsize, hpres x hx]
  · obtain ⟨u1, hrun1, _⟩ := groups_spec hwf2
    obtain ⟨u2, hrun2, _⟩ := groups_spec hwf
    rw [hrun1, hrun2, Option.map_some', Option.map_some']
    show some ((((List.range uf2.len).map (fun r => (List.range uf2.len).filter
        (fun i => rootD uf2 i == r))).filter (fun v => !v.isEmpty))) = _
    rw [hlen]
    have hmaps : (List.range uf.len).map (fun r => (List.range uf.len).filter
        (fun i => rootD uf2 i == r)) = (List.range uf.len).map
        (fun r => (List.range uf.len).filter (fun i => rootD uf i == r)) := by
      refine List.map_congr_left ?_
      intro r _
      refine List.filter_congr ?_
      intro i hi
      rw [hpres i (List.mem_range.mp hi)]
    rw [hmaps]

/-- A concrete state with a two-step parent chain (3 → 2 → 0), reached
from `new 4` by the merges (0,1), (2,3), (1,3). -/
lemma reachable_example4 :
    Reachable (⟨[0, 0, 0, 2], [2, 0, 1, 0], [4, 1, 2, 1]⟩ : UnionFind) := by
  have h1 : (UnionFind.new 4).merge 0 1 =
      some ⟨[0, 0, 2, 3], [1, 0, 0, 0], [2, 1, 1, 1]⟩ := by decide
  have h2 : (⟨[0, 0, 2, 3], [1, 0, 0, 0], [2, 1, 1, 1]⟩ : UnionFind).merge 2 3 =
      some ⟨[0, 0, 2, 2], [1, 0, 1, 0], [2, 1, 2, 1]⟩ := by decide
  have h3 : (⟨[0, 0, 2, 2], [1, 0, 1, 0], [2, 1, 2, 1]⟩ : UnionFind).merge 1 3 =
      some ⟨[0, 0, 0, 2], [2, 0, 1, 0], [4, 1, 2, 1]⟩ := by decide
  exact Reachable.merge (Reachable.merge (Reachable.merge (Reachable.new 4)
    (by decide) (by decide) h1) (by decide) (by decide) h2)
    (by decide) (by decide) h3

end UnionFind

/-! ### Union-find claims -/

/-- C3: in every reachable state, `size(x)` returns exactly the number of
indices `y < n` for which `is_same(x, y)` answers true. -/
theorem c3_size_counts_component {uf : UnionFind}
    (huf : UnionFind.Reachable uf) {x : Nat} (hx : x < uf.len) :
    ∃ res : Nat × UnionFind, uf.sizeOp x = some res ∧
      res.1 = ((Finset.range uf.len).filter
        (fun y => UnionFind.isSameVal uf x y = some true)).card := by
  have hwf := UnionFind.reachable_wf huf
  obtain ⟨uf1, hrun, _⟩ := UnionFind.sizeOp_spec hwf hx
  refine ⟨_, hrun, ?_⟩
  show uf.size.getD (UnionFind.rootD uf x) 0 = _
  rw [UnionFind.wf_sizes hwf _ (UnionFind.rootD_lt hwf hx)
    (UnionFind.rootD_isRoot hwf hx)]
  congr 1
  refine Finset.filter_congr ?_
  intro y hy
  have hy' : y < uf.len := Finset.mem_range.mp hy
  rw [UnionFind.isSameVal_eq hwf hx hy']
  constructor
  · intro h
    rw [h]
    simp
  · intro h
    have h2 : UnionFind.rootD uf x = UnionFind.rootD uf y := by
      simpa using h
    exact h2.symm

/-- Witness for C3 on the merged two-element structure. -/
theorem c3_size_counts_component_witness :
    ∃ res : Nat × UnionFind,
      (⟨[0, 0], [1, 0], [2, 1]⟩ : UnionFind).sizeOp 0 = some res ∧
      res.1 = ((Finset.range
          (⟨[0, 0], [1, 0], [2, 1]⟩ : UnionFind).len).filter
        (fun y => UnionFind.isSameVal ⟨[0, 0], [1, 0], [2, 1]⟩ 0 y =
          some true)).card := by
  have hm : (UnionFind.new 2).merge 0 1 =
      some (⟨[0, 0], [1, 0], [2, 1]⟩ : UnionFind) := by decide
  have hr : UnionFind.Reachable (⟨[0, 0], [1, 0], [2, 1]⟩ : UnionFind) :=
    UnionFind.Reachable.merge (UnionFind.Reachable.new 2) (by decide)
      (by decide) hm
  exact c3_size_counts_component hr (by decide)

/-- C4: the read operations may rewrite parent pointers through path
compression, but everything observable through `is_same`, `size` and
`groups` is identical before and after any of the three read calls. -/
theorem c4_reads_preserve_logic {uf : UnionFind}
    (huf : UnionFind.Reachable uf) :
    (∀ (a b : Nat) (res : Bool × UnionFind), a < uf.len → b < uf.len →
      uf.is_same a b = some res →
      (∀ x y, x < uf.len → y < uf.len →
        UnionFind.isSameVal res.2 x y = UnionFind.isSameVal uf x y) ∧
      (∀ x, x < uf.len →
        (res.2.sizeOp x).map Prod.fst = (uf.sizeOp x).map Prod.fst) ∧
      (res.2.groups).map Prod.fst = (uf.groups).map Prod.fst) ∧
    (∀ (x : Nat) (res : Nat × UnionFind), x < uf.len →
      uf.sizeOp x = some res →
      (∀ y z, y < uf.len → z < uf.len →
        UnionFind.isSameVal res.2 y z = UnionFind.isSameVal uf y z) ∧
      (∀ y, y < uf.len →
        (res.2.sizeOp y).map Prod.fst = (uf.sizeOp y).map Prod.fst) ∧
      (res.2.groups).map Prod.fst = (uf.groups).map Prod.fst) ∧
    (∀ res : List (List Nat) × UnionFind, uf.groups = some res →
      (∀ y z, y < uf.len → z < uf.len →
        UnionFind.isSameVal res.2 y z = UnionFind.isSameVal uf y z) ∧
      (∀ y, y < uf.len →
        (res.2.sizeOp y).map Prod.fst = (uf.sizeOp y).map Prod.fst) ∧
      (res.2.groups).map Prod.fst = (uf.groups).map Prod.fst) := by
  have hwf := UnionFind.reachable_wf huf
  refine ⟨?_, ?_, ?_⟩
  · intro a b res ha hb hcall
    obtain ⟨uf2, hrun, hwf2, hlen2, _, hsize2, hpres2⟩ :=
      UnionFind.is_same_spec hwf ha hb
    rw [hcall] at hrun
    obtain rfl := Option.some.inj hrun
    exact UnionFind.reads_agree hwf hwf2 hlen2 hsize2 hpres2
  · intro x res hx hcall
    obtain ⟨uf1, hrun, hwf1, hlen1, _, hsize1, hpres1⟩ :=
      UnionFind.sizeOp_spec hwf hx
    rw [hcall] at hrun
    obtain rfl := Option.some.inj hrun
    exact UnionFind.reads_agree hwf hwf1 hlen1 hsize1 hpres1
  · intro res hcall
    obtain ⟨uf1, hrun, hwf1, hlen1, _, hsize1, hpres1⟩ :=
      UnionFind.groups_spec hwf
    rw [hcall] at hrun
    obtain rfl := Option.some.inj hrun
    exact UnionFind.reads_agree hwf hwf1 hlen1 hsize1 hpres1

/-- Witness for C4: an `is_same(3, 2)` call compresses `3 → 2 → 0` into
direct pointers, and the compressed state answers `is_same(3, 2)` exactly
as the original did. -/
theorem c4_reads_preserve_logic_witness :
    UnionFind.isSameVal
      (⟨[0, 0, 0, 0], [2, 0, 1, 0], [4, 1, 2, 1]⟩ : UnionFind) 3 2 =
    UnionFind.isSameVal
      (⟨[0, 0, 0, 2], [2, 0, 1, 0], [4, 1, 2, 1]⟩ : UnionFind) 3 2 := by
  have hcall : (⟨[0, 0, 0, 2], [2, 0, 1, 0], [4, 1, 2, 1]⟩ :
      UnionFind).is_same 3 2 =
      some (true, ⟨[0, 0, 0, 0], [2, 0, 1, 0], [4, 1, 2, 1]⟩) := by decide
  exact ((c4_reads_preserve_logic UnionFind.reachable_example4).1 3 2
    (true, ⟨[0, 0, 0, 0], [2, 0, 1, 0], [4, 1, 2, 1]⟩)
    (by decide) (by decide) hcall).1 3 2 (by decide) (by decide)

/-- C6: `merge` on in-bounds arguments: equal roots are a logical no-op
(partition, rank array and size array all unchanged); otherwise the
lower-rank root is attached under the higher-rank root (on a tie, `b`'s
root goes under `a`'s root, whose rank grows by one), the surviving root's
stored size becomes the sum of the two components' sizes, and exactly the
absorbed component is redirected to the surviving root. -/
theorem c6_merge_by_rank {uf : UnionFind} (huf : UnionFind.Reachable uf)
    {a b : Nat} (ha : a < uf.len) (hb : b < uf.len) :
    ∃ uf' : UnionFind, uf.merge a b = some uf' ∧
      (UnionFind.rootD uf a = UnionFind.rootD uf b →
        uf'.rank = uf.rank ∧ uf'.size = uf.size ∧
        (∀ x, x < uf.len → UnionFind.rootD uf' x = UnionFind.rootD uf x)) ∧
      (UnionFind.rootD uf a ≠ UnionFind.rootD uf b →
        UnionFind.parentOf uf'.parents (UnionFind.mergeLoser uf a b) =
          UnionFind.mergeWinner uf a b ∧
        UnionFind.IsRootIdx uf'.parents (UnionFind.mergeWinner uf a b) ∧
        uf'.size.getD (UnionFind.mergeWinner uf a b) 0 =
          uf.size.getD (UnionFind.rootD uf a) 0 +
            uf.size.getD (UnionFind.rootD uf b) 0 ∧
        uf'.rank.getD (UnionFind.mergeWinner uf a b) 0 =
          uf.rank.getD (UnionFind.mergeWinner uf a b) 0 +
            (if uf.rank.getD (UnionFind.rootD uf a) 0 =
                uf.rank.getD (UnionFind.rootD uf b) 0 then 1 else 0) ∧
        (∀ x, x < uf.len → UnionFind.rootD uf' x =
          if UnionFind.rootD uf x = UnionFind.mergeLoser uf a b
          then UnionFind.mergeWinner uf a b
          else UnionFind.rootD uf x)) := by
  have hwf := UnionFind.reachable_wf huf
  obtain ⟨uf', hrun, _, _, heqcase, hnecase⟩ := UnionFind.merge_spec hwf ha hb
  exact ⟨uf', hrun, heqcase, hnecase⟩

/-- Witness for C6 on a fresh two-element structure. -/
theorem c6_merge_by_rank_witness :
    ∃ uf' : UnionFind, (UnionFind.new 2).merge 0 1 = some uf' ∧
      (UnionFind.rootD (UnionFind.new 2) 0 =
          UnionFind.rootD (UnionFind.new 2) 1 →
        uf'.rank = (UnionFind.new 2).rank ∧
        uf'.size = (UnionFind.new 2).size ∧
        (∀ x, x < (UnionFind.new 2).len →
          UnionFind.rootD uf' x = UnionFind.rootD (UnionFind.new 2) x)) ∧
      (UnionFind.rootD (UnionFind.new 2) 0 ≠
          UnionFind.rootD (UnionFind.new 2) 1 →
        UnionFind.parentOf uf'.parents
            (UnionFind.mergeLoser (UnionFind.new 2) 0 1) =
          UnionFind.mergeWinner (UnionFind.new 2) 0 1 ∧
        UnionFind.IsRootIdx uf'.parents
          (UnionFind.mergeWinner (UnionFind.new 2) 0 1) ∧
        uf'.size.getD (UnionFind.mergeWinner (UnionFind.new 2) 0 1) 0 =
          (UnionFind.new 2).size.getD
              (UnionFind.rootD (UnionFind.new 2) 0) 0 +
            (UnionFind.new 2).size.getD
              (UnionFind.rootD (UnionFind.new 2) 1) 0 ∧
        uf'.rank.getD (UnionFind.mergeWinner (UnionFind.new 2) 0 1) 0 =
          (UnionFind.new 2).rank.getD
              (UnionFind.mergeWinner (UnionFind.new 2) 0 1) 0 +
            (if (UnionFind.new 2).rank.getD
                  (UnionFind.rootD (UnionFind.new 2) 0) 0 =
                (UnionFind.new 2).rank.getD
                  (UnionFind.rootD (UnionFind.new 2) 1) 0 then 1 else 0) ∧
        (∀ x, x < (UnionFind.new 2).len →
          UnionFind.rootD uf' x =
            if UnionFind.rootD (UnionFind.new 2) x =
                UnionFind.mergeLoser (UnionFind.new 2) 0 1
            then UnionFind.mergeWinner (UnionFind.new 2) 0 1
            else UnionFind.rootD (UnionFind.new 2) x)) :=
  c6_merge_by_rank (UnionFind.Reachable.new 2) (by decide) (by decide)

/-- C10: in every reachable state the parent chain from any in-bounds node
reaches a root (the parent relation has no cycles other than root
self-loops), so the recursive `root` walk returns within fuel `len`. -/
theorem c10_root_terminates {uf : UnionFind} (huf : UnionFind.Reachable uf)
    {node : Nat} (hn : node < uf.len) :
    UnionFind.Reaches uf.parents node (UnionFind.rootD uf node) ∧
    ∃ r p', UnionFind.rootAux uf.len uf.parents node = some (r, p') := by
  have hwf := UnionFind.reachable_wf huf
  have hreach := UnionFind.rootD_reaches hwf hn
  refine ⟨hreach, ?_⟩
  obtain ⟨p', hrun, _⟩ := UnionFind.rootAux_spec (UnionFind.wf_bounds hwf)
    uf.len node (UnionFind.rootD uf node) hn hreach
    (UnionFind.reach_bound (UnionFind.wf_bounds hwf) hn hreach)
  exact ⟨_, p', hrun⟩

/-- Witness for C10 on the state with the chain 3 → 2 → 0. -/
theorem c10_root_terminates_witness :
    UnionFind.Reaches
      (⟨[0, 0, 0, 2], [2, 0, 1, 0], [4, 1, 2, 1]⟩ : UnionFind).parents 3
      (UnionFind.rootD
        (⟨[0, 0, 0, 2], [2, 0, 1, 0], [4, 1, 2, 1]⟩ : UnionFind) 3) ∧
    ∃ r p', UnionFind.rootAux
      (⟨[0, 0, 0, 2], [2, 0, 1, 0], [4, 1, 2, 1]⟩ : UnionFind).len
      (⟨[0, 0, 0, 2], [2, 0, 1, 0], [4, 1, 2, 1]⟩ : UnionFind).parents 3 =
      some (r, p') :=
  c10_root_terminates UnionFind.reachable_example4 (by decide)

/-- C7: in every reachable state `groups()` partitions `0..n`: every
index lies in exactly one returned group, every returned group is
non-empty, and two indices share a group exactly when `is_same` holds on
them. -/
theorem c7_groups_partition {uf : UnionFind}
    (huf : UnionFind.Reachable uf) :
    ∃ res : List (List Nat) × UnionFind, uf.groups = some res ∧
      (∀ i, i < uf.len → res.1.countP (fun g => decide (i ∈ g)) = 1) ∧
      (∀ g ∈ res.1, g ≠ []) ∧
      (∀ g ∈ res.1, ∀ i j, i ∈ g → j ∈ g →
        UnionFind.isSameVal uf i j = some true) ∧
      (∀ i j, i < uf.len → j < uf.len →
        UnionFind.isSameVal uf i j = some true →
        ∃ g ∈ res.1, i ∈ g ∧ j ∈ g) := by
  have hwf := UnionFind.reachable_wf huf
  obtain ⟨uf1, hrun, _⟩ := UnionFind.groups_spec hwf
  have hmem_bucket : ∀ r i, (i ∈ (List.range uf.len).filter
      (fun j => UnionFind.rootD uf j == r)) ↔
      (i < uf.len ∧ UnionFind.rootD uf i = r) := by
    intro r i
    rw [List.mem_filter, List.mem_range]
    simp
  refine ⟨_, hrun, ?_, ?_, ?_, ?_⟩
  · intro i hi
    show (((List.range uf.len).map (fun r => (List.range uf.len).filter
        (fun j => UnionFind.rootD uf j == r))).filter
          (fun v => !v.isEmpty)).countP (fun g => decide (i ∈ g)) = 1
    rw [List.countP_filter, List.countP_map]
    have hcongr : ∀ r ∈ List.range uf.len,
        (((fun g => decide (i ∈ g) && !g.isEmpty) ∘
          (fun r => (List.range uf.len).filter
            (fun j => UnionFind.rootD uf j == r))) r) = true ↔
          (r == UnionFind.rootD uf i) = true := by
      intro r _
      show (decide (i ∈ (List.range uf.len).filter
          (fun j => UnionFind.rootD uf j == r)) &&
        !((List.range uf.len).filter
          (fun j => UnionFind.rootD uf j == r)).isEmpty) = true ↔ _
      constructor
      · intro h
        have hmem : i ∈ (List.range uf.len).filter
            (fun j => UnionFind.rootD uf j == r) := by
          have h2 := (Bool.and_eq_true _ _).mp h
          simpa using h2.1
        have h3 : UnionFind.rootD uf i = r := ((hmem_bucket r i).mp hmem).2
        simpa using h3.symm
      · intro h
        have hroot : UnionFind.rootD uf i = r := by
          have h2 : r = UnionFind.rootD uf i := by simpa using h
          exact h2.symm
        have hmem : i ∈ (List.range uf.len).filter
            (fun j => UnionFind.rootD uf j == r) :=
          (hmem_bucket r i).mpr ⟨hi, hroot⟩
        have hne := List.ne_nil_of_mem hmem
        simp [hmem, hne]
    rw [List.countP_congr hcongr, ← List.count_eq_countP,
      List.count_eq_one_of_mem (List.nodup_range uf.len)
        (List.mem_range.mpr (UnionFind.rootD_lt hwf hi))]
  · intro g hg
    have h2 := (List.mem_filter.mp hg).2
    simpa using h2
  · intro g hg i j hi hj
    obtain ⟨hgm, _⟩ := List.mem_filter.mp hg
    obtain ⟨r, _, rfl⟩ := List.mem_map.mp hgm
    obtain ⟨hi_len, hi_root⟩ := (hmem_bucket r i).mp hi
    obtain ⟨hj_len, hj_root⟩ := (hmem_bucket r j).mp hj
    rw [UnionFind.isSameVal_eq hwf hi_len hj_len, hi_root, hj_root]
    simp
  · intro i j hi hj hsame
    have hroots : UnionFind.rootD uf i = UnionFind.rootD uf j := by
      have h2 := UnionFind.isSameVal_eq hwf hi hj
      rw [hsame] at h2
      simpa using h2.symm
    have hmem_i : i ∈ (List.range uf.len).filter
        (fun k => UnionFind.rootD uf k == UnionFind.rootD uf i) :=
      (hmem_bucket _ i).mpr ⟨hi, rfl⟩
    refine ⟨(List.range uf.len).filter
      (fun k => UnionFind.rootD uf k == UnionFind.rootD uf i), ?_, hmem_i,
      (hmem_bucket _ j).mpr ⟨hj, hroots.symm⟩⟩
    rw [List.mem_filter]
    constructor
    · exact List.mem_map.mpr ⟨UnionFind.rootD uf i,
        List.mem_range.mpr (UnionFind.rootD_lt hwf hi), rfl⟩
    · have hne := List.ne_nil_of_mem hmem_i
      simpa using hne

/-- Witness for C7 on the fully merged four-element structure. -/
theorem c7_groups_partition_witness :
    ∃ res : List (List Nat) × UnionFind,
      (⟨[0, 0, 0, 2], [2, 0, 1, 0], [4, 1, 2, 1]⟩ : UnionFind).groups =
        some res ∧
      (∀ i, i < (⟨[0, 0, 0, 2], [2, 0, 1, 0], [4, 1, 2, 1]⟩ :
          UnionFind).len → res.1.countP (fun g => decide (i ∈ g)) = 1) ∧
      (∀ g ∈ res.1, g ≠ []) ∧
      (∀ g ∈ res.1, ∀ i j, i ∈ g → j ∈ g →
        UnionFind.isSameVal ⟨[0, 0, 0, 2], [2, 0, 1, 0], [4, 1, 2, 1]⟩ i j =
          some true) ∧
      (∀ i j, i < (⟨[0, 0, 0, 2], [2, 0, 1, 0], [4, 1, 2, 1]⟩ :
          UnionFind).len →
        j < (⟨[0, 0, 0, 2], [2, 0, 1, 0], [4, 1, 2, 1]⟩ : UnionFind).len →
        UnionFind.isSameVal ⟨[0, 0, 0, 2], [2, 0, 1, 0], [4, 1, 2, 1]⟩ i j =
          some true → ∃ g ∈ res.1, i ∈ g ∧ j ∈ g) :=
  c7_groups_partition UnionFind.reachable_example4

/-- C8: on a fresh structure `is_same` is the identity relation on
`0..n`, and on every reachable state it is reflexive, symmetric and
transitive over the in-bounds indices. -/
theorem c8_is_same_equivalence :
    (∀ n i j : Nat, i < n → j < n →
      UnionFind.isSameVal (UnionFind.new n) i j = some (i == j)) ∧
    (∀ uf : UnionFind, UnionFind.Reachable uf → ∀ a b c : Nat,
      a < uf.len → b < uf.len → c < uf.len →
      UnionFind.isSameVal uf a a = some true ∧
      UnionFind.isSameVal uf a b = UnionFind.isSameVal uf b a ∧
      (UnionFind.isSameVal uf a b = some true →
        UnionFind.isSameVal uf b c = some true →
        UnionFind.isSameVal uf a c = some true)) := by
  constructor
  · intro n i j hi hj
    have hwfn := UnionFind.wf_new n
    rw [UnionFind.isSameVal_eq hwfn (by rw [UnionFind.new_len]; exact hi)
      (by rw [UnionFind.new_len]; exact hj),
      UnionFind.rootD_new hi, UnionFind.rootD_new hj]
  · intro uf huf a b c ha hb hc
    have hwf := UnionFind.reachable_wf huf
    refine ⟨?_, ?_, ?_⟩
    · rw [UnionFind.isSameVal_eq hwf ha ha]
      simp
    · rw [UnionFind.isSameVal_eq hwf ha hb, UnionFind.isSameVal_eq hwf hb ha]
      by_cases h : UnionFind.rootD uf a = UnionFind.rootD uf b
      · rw [h]
      · have h2 : UnionFind.rootD uf b ≠ UnionFind.rootD uf a :=
          fun hh => h hh.symm
        simp [h, h2]
    · intro h1 h2
      rw [UnionFind.isSameVal_eq hwf ha hb] at h1
      rw [UnionFind.isSameVal_eq hwf hb hc] at h2
      rw [UnionFind.isSameVal_eq hwf ha hc]
      have e1 : UnionFind.rootD uf a = UnionFind.rootD uf b := by
        simpa using h1
      have e2 : UnionFind.rootD uf b = UnionFind.rootD uf c := by
        simpa using h2
      rw [e1, e2]
      simp

/-- Witness for C8: the fresh-structure value at distinct indices and the
three equivalence properties on a concrete reachable state. -/
theorem c8_is_same_equivalence_witness :
    UnionFind.isSameVal (UnionFind.new 2) 0 1 = some false ∧
    UnionFind.isSameVal
      (⟨[0, 0, 0, 2], [2, 0, 1, 0], [4, 1, 2, 1]⟩ : UnionFind) 0 0 =
      some true ∧
    UnionFind.isSameVal
      (⟨[0, 0, 0, 2], [2, 0, 1, 0], [4, 1, 2, 1]⟩ : UnionFind) 0 1 =
    UnionFind.isSameVal
      (⟨[0, 0, 0, 2], [2, 0, 1, 0], [4, 1, 2, 1]⟩ : UnionFind) 1 0 ∧
    UnionFind.isSameVal
      (⟨[0, 0, 0, 2], [2, 0, 1, 0], [4, 1, 2, 1]⟩ : UnionFind) 0 2 =
      some true := by
  obtain ⟨hfresh, hequiv⟩ := c8_is_same_equivalence
  obtain ⟨hrefl, hsymm, htrans⟩ := hequiv _ UnionFind.reachable_example4
    0 1 2 (by decide) (by decide) (by decide)
  exact ⟨hfresh 2 0 1 (by decide) (by decide), hrefl, hsymm,
    htrans (by decide) (by decide)⟩

/-! ### Binary indexed tree claims -/

/-- C1: over an abelian group, starting from `new n` and applying any
in-bounds sequence of `add` calls, `query` over any valid resolved range
returns the group-fold of exactly those update values whose index lies in
the half-open range — unchanged under any permutation of the `add`
sequence — and `get i` returns the fold of the updates applied at `i`
(the identity if there are none). -/
theorem c1_query_returns_range_fold {T : Type} [AddCommGroup T] (n : Nat)
    (us us' : List (Nat × T)) (hus : ∀ u ∈ us, u.1 < n) (hperm : us'.Perm us)
    (sb eb : RangeBound) (i : Nat)
    (hab : resolveStart sb < resolveEnd n eb) (hbn : resolveEnd n eb ≤ n)
    (hi : i < n) :
    ∃ bit bit' : BIT T,
      BIT.applyAll us (BIT.new T n) = some bit ∧
      BIT.applyAll us' (BIT.new T n) = some bit' ∧
      bit.query sb eb =
        some (BIT.rangeFold us (resolveStart sb) (resolveEnd n eb)) ∧
      bit'.query sb eb =
        some (BIT.rangeFold us (resolveStart sb) (resolveEnd n eb)) ∧
      bit.get i = some (BIT.rangeFold us i (i + 1)) := by
  have hus' : ∀ u ∈ us', u.1 < n := fun u hu => hus u (hperm.subset hu)
  have hnew := @BIT.new_models T _ n
  obtain ⟨bit, hrun, hmod⟩ := BIT.applyAll_models hnew us
    (fun u hu => by rw [BIT.len_new]; exact hus u hu)
  obtain ⟨bit', hrun', hmod'⟩ := BIT.applyAll_models hnew us'
    (fun u hu => by rw [BIT.len_new]; exact hus' u hu)
  have hblen : bit.len = n := by
    show bit.tree.length = n
    rw [hmod.1, BIT.foldl_modelAdd_length, List.length_replicate]
  have hblen' : bit'.len = n := by
    show bit'.tree.length = n
    rw [hmod'.1, BIT.foldl_modelAdd_length, List.length_replicate]
  have hval : ∀ (vs : List (Nat × T)), (∀ u ∈ vs, u.1 < n) → ∀ k,
      (vs.foldl BIT.modelAdd (List.replicate n (0 : T))).getD k 0 =
        ((vs.filter (fun u => u.1 == k)).map Prod.snd).sum := by
    intro vs hvs k
    rw [BIT.foldl_modelAdd_getD vs _
      (fun u hu => by rw [List.length_replicate]; exact hvs u hu) k,
      getD_replicate_self, zero_add]
  have hrf : ∀ a b : Nat, BIT.rangeFold us' a b = BIT.rangeFold us a b := by
    intro a b
    unfold BIT.rangeFold
    exact List.Perm.sum_eq (List.Perm.map Prod.snd (List.Perm.filter _ hperm))
  refine ⟨bit, bit', hrun, hrun', ?_, ?_, ?_⟩
  · have h1 : resolveStart sb < resolveEnd bit.len eb := by
      rw [hblen]
      exact hab
    have h3 : resolveEnd bit.len eb ≤ bit.len := by
      rw [hblen]
      exact hbn
    rw [BIT.query_eq hmod h1 h3, hblen,
      Finset.sum_congr rfl (fun k _ => hval us hus k), BIT.sum_Ico_filter]
  · have h1 : resolveStart sb < resolveEnd bit'.len eb := by
      rw [hblen']
      exact hab
    have h3 : resolveEnd bit'.len eb ≤ bit'.len := by
      rw [hblen']
      exact hbn
    rw [BIT.query_eq hmod' h1 h3, hblen',
      Finset.sum_congr rfl (fun k _ => hval us' hus' k), BIT.sum_Ico_filter,
      hrf]
  · rw [BIT.get, if_pos (show i < bit.len by omega)]
    have h1 : resolveStart (.included i) <
        resolveEnd bit.len (.included i) := by
      show i < i + 1
      omega
    have h3 : resolveEnd bit.len (.included i) ≤ bit.len := by
      show i + 1 ≤ bit.len
      omega
    rw [BIT.query_eq hmod h1 h3]
    show some (∑ k ∈ Finset.Ico i (i + 1),
      (us.foldl BIT.modelAdd (List.replicate n 0)).getD k 0) = _
    rw [Finset.sum_congr rfl (fun k _ => hval us hus k), BIT.sum_Ico_filter]

/-- Witness for C1 at a concrete instance over `Sum<isize>`. -/
theorem c1_query_returns_range_fold_witness :
    ∃ bit bit' : BIT Int,
      BIT.applyAll [(0, (5 : Int)), (2, 7), (0, 1)] (BIT.new Int 3) =
        some bit ∧
      BIT.applyAll [(2, (7 : Int)), (0, 1), (0, 5)] (BIT.new Int 3) =
        some bit' ∧
      bit.query (.included 0) (.excluded 3) =
        some (BIT.rangeFold [(0, (5 : Int)), (2, 7), (0, 1)] 0 3) ∧
      bit'.query (.included 0) (.excluded 3) =
        some (BIT.rangeFold [(0, (5 : Int)), (2, 7), (0, 1)] 0 3) ∧
      bit.get 2 = some (BIT.rangeFold [(0, (5 : Int)), (2, 7), (0, 1)] 2 3) :=
  c1_query_returns_range_fold 3 [(0, (5 : Int)), (2, 7), (0, 1)]
    [(2, (7 : Int)), (0, 1), (0, 5)] (by decide) (by decide)
    (.included 0) (.excluded 3) 2 (by decide) (by decide) (by decide)

/-- C2, evaluated at the failing input: `from_slice` copies the converted
values straight into the node array without a Fenwick build, so over
`Sum<isize>` the structure built from `[1, 2]` answers `get(1)` with
`2 - 1 = 1`, not the seeded `values[1] = 2` that the specification's
invariant promises; the length clause does hold. -/
theorem c2_from_slice_get_eval :
    (BIT.from_slice (fun x : Int => x) [1, 2]).get 1 = some 1 ∧
    (1 : Int) ≠ 2 ∧
    (BIT.from_slice (fun x : Int => x) [1, 2]).len = 2 := by
  refine ⟨?_, by decide, rfl⟩
  simp [BIT.get, BIT.query, BIT.sum, BIT.sumLoop, BIT.down, BIT.checkedSub,
    resolveStart, resolveEnd, BIT.len, BIT.from_slice]

/-- C5: `add` aborts exactly when the index reaches `len`, and `query`
aborts exactly when the resolved bounds violate
`begin < end ∧ begin < len ∧ end ≤ len` (so an empty structure admits no
valid range); an abort produces no successor state, mirroring that the
`assert!` fires before any element is written. -/
theorem c5_abort_conditions {T : Type} [AddCommGroup T] (bit : BIT T)
    (index : Nat) (value : T) (sb eb : RangeBound) :
    (bit.add index value = none ↔ bit.len ≤ index) ∧
    (bit.query sb eb = none ↔
      ¬(resolveStart sb < resolveEnd bit.len eb ∧
        resolveStart sb < bit.len ∧ resolveEnd bit.len eb ≤ bit.len)) := by
  constructor
  · rw [BIT.add]
    by_cases h : index < bit.len
    · rw [if_pos h]
      constructor
      · intro hcon
        exact absurd hcon (by simp)
      · intro hle
        omega
    · rw [if_neg h]
      constructor
      · intro _
        omega
      · intro _
        rfl
  · rw [BIT.query_ite]
    by_cases hg : resolveStart sb < resolveEnd bit.len eb ∧
        resolveStart sb < bit.len ∧ resolveEnd bit.len eb ≤ bit.len
    · rw [if_pos hg]
      obtain ⟨t1, ht1⟩ : ∃ t, bit.sum (resolveEnd bit.len eb) = some t := by
        rw [BIT.sum, if_pos hg.2.2]
        exact ⟨_, rfl⟩
      obtain ⟨t2, ht2⟩ : ∃ t, bit.sum (resolveStart sb) = some t := by
        rw [BIT.sum, if_pos (le_of_lt hg.2.1)]
        exact ⟨_, rfl⟩
      rw [ht1, ht2]
      show some (t1 + -t2) = none ↔ _
      simp [hg]
    · rw [if_neg hg]
      simp [hg]

/-- C9: a fresh structure of positive size answers the full-range query
(and every valid query) with the group identity, and a fresh structure of
size zero rejects every range. -/
theorem c9_new_query_identity {T : Type} [AddCommGroup T] (n : Nat)
    (sb eb : RangeBound) :
    (0 < n → (BIT.new T n).query .unbounded .unbounded = some 0) ∧
    (resolveStart sb < resolveEnd n eb → resolveEnd n eb ≤ n →
      (BIT.new T n).query sb eb = some 0) ∧
    (BIT.new T 0).query sb eb = none := by
  have hmod := @BIT.new_models T _ n
  have hblen : (BIT.new T n).len = n := BIT.len_new n
  have hzero : ∀ (sb' eb' : RangeBound),
      resolveStart sb' < resolveEnd n eb' → resolveEnd n eb' ≤ n →
      (BIT.new T n).query sb' eb' = some 0 := by
    intro sb' eb' h1 h2
    have h1' : resolveStart sb' < resolveEnd (BIT.new T n).len eb' := by
      rw [hblen]
      exact h1
    have h3' : resolveEnd (BIT.new T n).len eb' ≤ (BIT.new T n).len := by
      rw [hblen]
      exact h2
    rw [BIT.query_eq hmod h1' h3',
      Finset.sum_congr rfl (fun k _ => getD_replicate_self 0 n k),
      Finset.sum_const_zero]
  refine ⟨?_, hzero sb eb, ?_⟩
  · intro hn
    refine hzero .unbounded .unbounded ?_ ?_
    · show 0 < n
      exact hn
    · show n ≤ n
      exact le_refl n
  · rw [BIT.query_ite, if_neg]
    intro ⟨_, hB, _⟩
    rw [BIT.len_new] at hB
    omega

/-- Witness for C9 at `n = 2` over `Sum<isize>`. -/
theorem c9_new_query_identity_witness :
    (BIT.new Int 2).query .unbounded .unbounded = some 0 ∧
    (BIT.new Int 2).query (.included 0) (.excluded 1) = some 0 ∧
    (BIT.new Int 0).query (.included 0) (.excluded 1) = none := by
  obtain ⟨h1, h2, h3⟩ :=
    @c9_new_query_identity Int _ 2 (.included 0) (.excluded 1)
  exact ⟨h1 (by decide), h2 (by decide) (by decide), h3⟩

end CompetitiveRs
